import Mathlib

/-!
# Verification of the `freader` log-collector core

A shallow embedding, in Lean 4, of the core data structures and algorithms of
the `freader` file log collector, together with theorems settling the frozen
claims about its specification.

Conventions of the embedding:
* Go byte strings (file content, separators, lines, records) are `List Nat`
  (one `Nat` per byte; only equality of bytes matters to the embedded code).
* Go `int64` offsets are modelled as `Nat`; the code only ever adds
  non-negative chunk lengths to offsets, so overflow at `2^63` is out of
  scope of the claims considered here.
* Stateful Go structs protected by a mutex (`FileTracker`, `TailScheduler`,
  `MultilineReader`) are modelled as explicit state values with pure
  transition functions; each Go method body is translated line by line.
* `regexp.Regexp.Match` on a compiled pattern is a pure predicate on the
  line bytes; it is embedded as an arbitrary function `List Nat → Bool`
  supplied as a parameter.
* SHA-256 hashing is injective for the purposes of the fingerprint claims;
  the fingerprint functions here return the exact byte prefix that the Go
  code feeds to `sha256`, rather than the hex digest of it.
-/

/-- A byte of file content. -/
abbrev Byte := Nat

namespace FileTrackerModel

/-- Embeds `file_tracker.TrackedFile`:
`{Path string; FingerprintStrategy string; FingerprintSize int64; Offset int64}`. -/
structure TrackedFile where
  path : String
  fingerprintStrategy : String
  fingerprintSize : Int
  offset : Int
  deriving DecidableEq, Repr

/-- Embeds `file_tracker.FileTracker`: a mutex-protected `map[string]TrackedFile`.
The Go map is modelled as an association list with at most one entry per key
(`Add` overwrites, `Remove` deletes). -/
structure FileTracker where
  info : List (String × TrackedFile)
  deriving DecidableEq, Repr

/-- Go map lookup `f.info[fileId]`. -/
def lookup (f : FileTracker) (fileId : String) : Option TrackedFile :=
  (f.info.find? (fun e => e.1 = fileId)).map (·.2)

/-- Embeds `FileTracker.Get`. -/
def get (f : FileTracker) (fileId : String) : Option TrackedFile :=
  lookup f fileId

/-- Embeds `FileTracker.Add`: `f.info[fileId] = TrackedFile{...}` (map assignment,
inserting or overwriting the entry for `fileId`). -/
def add (f : FileTracker) (fileId path fingerprintStrategy : String)
    (fingerprintSize : Int) (offset : Int) : FileTracker :=
  let entry : TrackedFile :=
    { path := path, fingerprintStrategy := fingerprintStrategy,
      fingerprintSize := fingerprintSize, offset := offset }
  if (f.info.find? (fun e => e.1 = fileId)).isSome then
    ⟨f.info.map (fun e => if e.1 = fileId then (fileId, entry) else e)⟩
  else
    ⟨f.info ++ [(fileId, entry)]⟩

/-- Embeds `FileTracker.Remove`: `delete(f.info, fileId)`. -/
def remove (f : FileTracker) (fileId : String) : FileTracker :=
  ⟨f.info.filter (fun e => ¬ e.1 = fileId)⟩

/-- Embeds `FileTracker.UpdateOffset`:
```
if file, exists := f.info[fileId]; exists {
    file.Offset = offset
    f.info[fileId] = file
    return true
}
return false
``` -/
def updateOffset (f : FileTracker) (fileId : String) (offset : Int) :
    Bool × FileTracker :=
  match lookup f fileId with
  | some file =>
      (true, ⟨f.info.map (fun e =>
        if e.1 = fileId then (fileId, { file with offset := offset }) else e)⟩)
  | none => (false, f)

end FileTrackerModel

namespace FileTrackerModel

/-- Replacing the entries keyed `id` does not affect lookups of other keys. -/
theorem find?_update_other (l : List (String × TrackedFile)) (id : String)
    (v : TrackedFile) (j : String) (hj : j ≠ id) :
    (l.map (fun e => if e.1 = id then (id, v) else e)).find? (fun e => e.1 = j)
      = l.find? (fun e => e.1 = j) := by
  induction l with
  | nil => rfl
  | cons e t ih =>
      by_cases he : e.1 = id
      · have h1 : (if e.1 = id then (id, v) else e) = (id, v) := by simp [he]
        have h2 : ¬ ((id, v).1 = j) := by simpa using fun h => hj h.symm
        have h3 : ¬ (e.1 = j) := by
          rw [he]; exact fun h => hj h.symm
        simp only [List.map_cons, List.find?_cons, h1]
        simp [h2, h3, ih]
      · have h1 : (if e.1 = id then (id, v) else e) = e := by simp [he]
        simp only [List.map_cons, List.find?_cons, h1]
        by_cases h3 : e.1 = j
        · simp [h3]
        · simp [h3, ih]

/-- Replacing the entries keyed `id` rewrites the lookup of `id` itself,
provided `id` was present. -/
theorem find?_update_self (l : List (String × TrackedFile)) (id : String)
    (v : TrackedFile) (e0 : String × TrackedFile)
    (h : l.find? (fun e => e.1 = id) = some e0) :
    (l.map (fun e => if e.1 = id then (id, v) else e)).find? (fun e => e.1 = id)
      = some (id, v) := by
  induction l with
  | nil => simp at h
  | cons e t ih =>
      by_cases he : e.1 = id
      · have h1 : (if e.1 = id then (id, v) else e) = (id, v) := by simp [he]
        simp only [List.map_cons, List.find?_cons, h1]
        simp
      · have h1 : (if e.1 = id then (id, v) else e) = e := by simp [he]
        have h' : t.find? (fun e => e.1 = id) = some e0 := by
          rw [List.find?_cons_of_neg _ (by simpa using he)] at h
          exact h
        rw [List.map_cons, h1, List.find?_cons_of_neg _ (by simpa using he)]
        exact ih h'

/-- **C10.** `FileTracker.UpdateOffset` atomicity and frame: on a tracked
identity it returns `true` and changes only the `Offset` field of that
identity's entry (its `Path`, `FingerprintStrategy`, `FingerprintSize` and
every other identity's entry are unchanged); on an untracked identity it
returns `false` and leaves the whole tracker state unchanged. -/
theorem fileTracker_updateOffset_frame (f : FileTracker) (id : String) (off : Int) :
    (∀ tf, lookup f id = some tf →
      (updateOffset f id off).1 = true ∧
      lookup (updateOffset f id off).2 id = some { tf with offset := off } ∧
      ∀ j, j ≠ id → lookup (updateOffset f id off).2 j = lookup f j) ∧
    (lookup f id = none → updateOffset f id off = (false, f)) := by
  constructor
  · intro tf htf
    have hfind : ∃ e0, f.info.find? (fun e => e.1 = id) = some e0 := by
      unfold lookup at htf
      cases hf : f.info.find? (fun e => e.1 = id) with
      | none => rw [hf] at htf; simp at htf
      | some e0 => exact ⟨e0, rfl⟩
    obtain ⟨e0, he0⟩ := hfind
    refine ⟨?_, ?_, ?_⟩
    · simp [updateOffset, htf]
    · simp only [updateOffset, htf]
      unfold lookup
      rw [find?_update_self f.info id { tf with offset := off } e0 he0]
      rfl
    · intro j hj
      simp only [updateOffset, htf]
      unfold lookup
      rw [find?_update_other f.info id { tf with offset := off } j hj]
  · intro hnone
    simp [updateOffset, hnone]

/-- Witness for `fileTracker_updateOffset_frame` at a concrete two-entry
tracker: updating `"a"` to offset 7 keeps `"b"` intact and preserves the
non-offset fields of `"a"`; updating the absent `"c"` is a no-op. -/
theorem fileTracker_updateOffset_frame_witness :
    let tfa : TrackedFile := ⟨"/log/a", "checksum", 64, 3⟩
    let tfb : TrackedFile := ⟨"/log/b", "checksum", 64, 5⟩
    let f : FileTracker := ⟨[("a", tfa), ("b", tfb)]⟩
    (updateOffset f "a" 7).1 = true ∧
    lookup (updateOffset f "a" 7).2 "a" = some ⟨"/log/a", "checksum", 64, 7⟩ ∧
    lookup (updateOffset f "a" 7).2 "b" = lookup f "b" ∧
    updateOffset f "c" 7 = (false, f) := by
  intro tfa tfb f
  have h := fileTracker_updateOffset_frame f "a" 7
  have ha : lookup f "a" = some tfa := by decide
  obtain ⟨h1, h2, h3⟩ := h.1 tfa ha
  refine ⟨h1, h2, h3 "b" (by decide), ?_⟩
  exact (fileTracker_updateOffset_frame f "c" 7).2 (by decide)

end FileTrackerModel

namespace StoreModel

/-- Classification of one `s.db.Exec` outcome, as seen by `execWithRetry`:
success, a busy error (`isBusyError(err)` true, i.e. the error text contains
`SQLITE_BUSY` or `database is locked`), or any other error. -/
inductive ExecResult where
  | ok
  | busy
  | failed
  deriving DecidableEq, Repr

/-- Result of `execWithRetry`: how it returned, after how many `Exec`
attempts, and how many milliseconds of backoff sleep it performed. -/
inductive RetryOutcome where
  /-- `Exec` succeeded; `Save`/`Delete` return `nil`. -/
  | success (attempts sleptMs : Nat)
  /-- A non-busy error was returned immediately. -/
  | failOther (attempts sleptMs : Nat)
  /-- All five attempts were busy; the last (busy) error is returned. -/
  | failBusy (attempts sleptMs : Nat)
  deriving DecidableEq, Repr

/-- The retry loop of `sqliteStore.execWithRetry`:
```
for attempt := 0; attempt < 5; attempt++ {
    res, err = s.db.Exec(query, args...)
    if err == nil { return res, nil }
    if !isBusyError(err) { return nil, err }
    time.Sleep(time.Duration(50*(attempt+1)) * time.Millisecond)
}
return nil, err
```
`exec attempt` is the outcome of the `Exec` call of that iteration. -/
def execRetryGo (exec : Nat → ExecResult) (attempt sleptMs : Nat) : RetryOutcome :=
  if _h : attempt < 5 then
    match exec attempt with
    | .ok => .success (attempt + 1) sleptMs
    | .failed => .failOther (attempt + 1) sleptMs
    | .busy => execRetryGo exec (attempt + 1) (sleptMs + 50 * (attempt + 1))
  else
    .failBusy attempt sleptMs
termination_by 5 - attempt
decreasing_by omega

/-- Embeds `sqliteStore.execWithRetry` (the statement-execution helper used
by both `Save` and `Delete`). -/
def execWithRetry (exec : Nat → ExecResult) : RetryOutcome :=
  execRetryGo exec 0 0

/-- Total backoff slept before making attempt `k` (attempts `1..k` each
failed busy and were followed by `50*(attempt+1)` ms of sleep). -/
def sleptBefore (k : Nat) : Nat :=
  ((List.range k).map (fun i => 50 * (i + 1))).sum

theorem sleptBefore_succ (k : Nat) :
    sleptBefore (k + 1) = sleptBefore k + 50 * (k + 1) := by
  simp [sleptBefore, List.range_succ]

/-- One busy iteration of the retry loop. -/
theorem execRetryGo_busy_step (exec : Nat → ExecResult) (a s : Nat)
    (ha : a < 5) (h : exec a = .busy) :
    execRetryGo exec a s = execRetryGo exec (a + 1) (s + 50 * (a + 1)) := by
  rw [execRetryGo, dif_pos ha, h]

/-- **C8.** `OffsetStore` bounded retry on busy: every `Save` or `Delete`
runs its statement through `execWithRetry`, which (i) if all 5 attempts
report busy, sleeps `50,100,150,200,250` ms between/after attempts
(750 ms total) and returns the last busy error; (ii) if the first `k`
attempts are busy and attempt `k` succeeds (`k < 5`), returns `nil` after
`k+1` attempts with backoff `50*1,...,50*k` ms; (iii) if the first `k`
attempts are busy and attempt `k` fails with a non-busy error, that error
is returned immediately after `k+1` attempts with no further retry. -/
theorem store_execWithRetry_policy (exec : Nat → ExecResult) :
    ((∀ i, i < 5 → exec i = .busy) → execWithRetry exec = .failBusy 5 750) ∧
    (∀ k, k < 5 → (∀ i, i < k → exec i = .busy) → exec k = .ok →
      execWithRetry exec = .success (k + 1) (sleptBefore k)) ∧
    (∀ k, k < 5 → (∀ i, i < k → exec i = .busy) → exec k = .failed →
      execWithRetry exec = .failOther (k + 1) (sleptBefore k)) := by
  have step := execRetryGo_busy_step exec
  refine ⟨?_, ?_, ?_⟩
  · intro h
    unfold execWithRetry
    rw [step 0 0 (by omega) (h 0 (by omega)),
        step 1 50 (by omega) (h 1 (by omega)),
        step 2 150 (by omega) (h 2 (by omega)),
        step 3 300 (by omega) (h 3 (by omega)),
        step 4 500 (by omega) (h 4 (by omega)),
        execRetryGo, dif_neg (by omega)]
  · intro k hk hbusy hok
    unfold execWithRetry
    interval_cases k
    · rw [execRetryGo, dif_pos (by omega), hok]; rfl
    · rw [step 0 0 (by omega) (hbusy 0 (by omega)),
          execRetryGo, dif_pos (by omega), hok]; rfl
    · rw [step 0 0 (by omega) (hbusy 0 (by omega)),
          step 1 50 (by omega) (hbusy 1 (by omega)),
          execRetryGo, dif_pos (by omega), hok]; rfl
    · rw [step 0 0 (by omega) (hbusy 0 (by omega)),
          step 1 50 (by omega) (hbusy 1 (by omega)),
          step 2 150 (by omega) (hbusy 2 (by omega)),
          execRetryGo, dif_pos (by omega), hok]; rfl
    · rw [step 0 0 (by omega) (hbusy 0 (by omega)),
          step 1 50 (by omega) (hbusy 1 (by omega)),
          step 2 150 (by omega) (hbusy 2 (by omega)),
          step 3 300 (by omega) (hbusy 3 (by omega)),
          execRetryGo, dif_pos (by omega), hok]; rfl
  · intro k hk hbusy hfail
    unfold execWithRetry
    interval_cases k
    · rw [execRetryGo, dif_pos (by omega), hfail]; rfl
    · rw [step 0 0 (by omega) (hbusy 0 (by omega)),
          execRetryGo, dif_pos (by omega), hfail]; rfl
    · rw [step 0 0 (by omega) (hbusy 0 (by omega)),
          step 1 50 (by omega) (hbusy 1 (by omega)),
          execRetryGo, dif_pos (by omega), hfail]; rfl
    · rw [step 0 0 (by omega) (hbusy 0 (by omega)),
          step 1 50 (by omega) (hbusy 1 (by omega)),
          step 2 150 (by omega) (hbusy 2 (by omega)),
          execRetryGo, dif_pos (by omega), hfail]; rfl
    · rw [step 0 0 (by omega) (hbusy 0 (by omega)),
          step 1 50 (by omega) (hbusy 1 (by omega)),
          step 2 150 (by omega) (hbusy 2 (by omega)),
          step 3 300 (by omega) (hbusy 3 (by omega)),
          execRetryGo, dif_pos (by omega), hfail]; rfl

/-- Witness for `store_execWithRetry_policy`: an execution that is busy on
attempts 0 and 1 and succeeds on attempt 2 returns success after 3 attempts
with 150 ms of backoff; an all-busy execution returns the busy failure after
5 attempts and 750 ms; an immediate non-busy failure returns at once. -/
theorem store_execWithRetry_policy_witness :
    execWithRetry (fun i => if i < 2 then .busy else .ok) = .success 3 150 ∧
    execWithRetry (fun _ => .busy) = .failBusy 5 750 ∧
    execWithRetry (fun _ => .failed) = .failOther 1 0 := by
  refine ⟨?_, ?_, ?_⟩
  · have h := (store_execWithRetry_policy (fun i => if i < 2 then .busy else .ok)).2.1
      2 (by omega) (fun i hi => by simp [hi]) (by simp)
    simpa [sleptBefore] using h
  · have h := (store_execWithRetry_policy (fun _ => .busy)).1 (fun i _ => rfl)
    exact h
  · have h := (store_execWithRetry_policy (fun _ => .failed)).2.2
      0 (by omega) (fun i hi => by omega) rfl
    simpa [sleptBefore] using h

end StoreModel

namespace SchedulerModel

/-- Embeds `collector.TailScheduler`. The Go struct keeps a doubly linked
`container/list` of `*TailReader` values, a cursor element, an
`index : map[string]*list.Element`, and `running : map[string]bool`.
Here: the list is the list of scheduled identities (the `TailReader` value
is identified by its `FileId`), the cursor is an optional index into it,
and `running` is the set of identities whose map entry is `true`
(`SetIdle` writing `false` and `delete` both leave the identity out of the
set; `getNextAvailable` checks `!exists || !running`, so only membership
matters). `index` membership coincides with list membership for the
`Add(update=false)` discipline used by the collector. -/
structure Sched where
  ids : List String
  cursor : Option Nat
  running : List String
  deriving DecidableEq, Repr

/-- Embeds `TailScheduler.Add(id, fileTail, update)`. -/
def schedAdd (s : Sched) (id : String) (update : Bool) : Sched :=
  if update = false ∧ id ∈ s.ids then s
  else
    { ids := s.ids ++ [id],
      cursor := match s.cursor with
        | none => some 0           -- `t.cursor = t.available.Front()`
        | some c => some c,
      running := s.running }

/-- Embeds `TailScheduler.Remove(id)`. After `t.available.Remove(elem)`,
`container/list` nils out `elem.next`, so the subsequent
`t.cursor = elem.Next()` yields `nil` and the cursor is reset to
`t.available.Front()` whenever it pointed at the removed element. -/
def schedRemove (s : Sched) (id : String) : Sched :=
  match s.ids.indexOf? id with
  | none => s
  | some k =>
      let ids' := s.ids.eraseIdx k
      { ids := ids',
        cursor := match s.cursor with
          | none => none
          | some c =>
              if c = k then (if ids'.isEmpty then none else some 0)
              else if k < c then some (c - 1) else some c,
        running := s.running.erase id }

/-- Embeds `TailScheduler.SetIdle(id)`: `if _, ok := t.index[id]; ok { t.running[id] = false }`. -/
def schedSetIdle (s : Sched) (id : String) : Sched :=
  if id ∈ s.ids then { s with running := s.running.erase id } else s

/-- Go `t.cursor = t.cursor.Next()`: the successor index, `none` past the tail. -/
def nextCursor (len c : Nat) : Option Nat :=
  if c + 1 < len then some (c + 1) else none

/-- Go loop-top cursor reset: `if t.cursor == nil { t.cursor = t.available.Front() }`. -/
def curOr0 : Option Nat → Nat
  | none => 0
  | some c => c

/-- The scan loop of `getNextAvailable`: starting at `cur` (reset to the
front when `nil`), return the first identity not in `running`, marking it;
stop after a full loop when the advanced cursor equals `startCursor`.
`fuel` dominates the loop length (`ids.length + 1` suffices). -/
def gnaGo (ids running : List String) (start : Option Nat) :
    Option Nat → Nat → Option (String × Option Nat × List String)
  | _, 0 => none
  | cur, fuel + 1 =>
      match ids[curOr0 cur]? with
      | none => none
      | some id =>
          if id ∈ running then
            if nextCursor ids.length (curOr0 cur) = start then none
            else gnaGo ids running start (nextCursor ids.length (curOr0 cur)) fuel
          else
            some (id, nextCursor ids.length (curOr0 cur), id :: running)

/-- Embeds `TailScheduler.getNextAvailable`. Returns the chosen identity (if
any) and the updated scheduler state. -/
def getNextAvailable (s : Sched) : Option String × Sched :=
  if s.ids.length = 0 then (none, s)
  else
    match gnaGo s.ids s.running s.cursor s.cursor (s.ids.length + 1) with
    | some (id, cur', running') =>
        (some id, { s with cursor := cur', running := running' })
    | none => (none, s)

/-- The operations a collector worker or the watcher callbacks perform on the
scheduler (all serialized under its mutex). -/
inductive SchedOp where
  | add (id : String) (update : Bool)
  | remove (id : String)
  | setIdle (id : String)
  | next
  deriving DecidableEq, Repr

/-- Apply one scheduler operation to the state. -/
def applySched (s : Sched) : SchedOp → Sched
  | .add id update => schedAdd s id update
  | .remove id => schedRemove s id
  | .setIdle id => schedSetIdle s id
  | .next => (getNextAvailable s).2

/-- `gnaGo` only succeeds on an identity that is not in-flight, and marks it. -/
theorem gnaGo_success (ids running : List String) (start : Option Nat) :
    ∀ cur fuel id cur' running',
      gnaGo ids running start cur fuel = some (id, cur', running') →
      id ∉ running ∧ running' = id :: running := by
  intro cur fuel
  induction fuel generalizing cur with
  | zero => intro id cur' running' h; simp [gnaGo] at h
  | succ fuel ih =>
      intro id cur' running' h
      simp only [gnaGo] at h
      cases hid : ids[curOr0 cur]? with
      | none => rw [hid] at h; simp at h
      | some cand =>
          rw [hid] at h
          dsimp only at h
          by_cases hrun : cand ∈ running
          · rw [if_pos hrun] at h
            by_cases hstop : nextCursor ids.length (curOr0 cur) = start
            · rw [if_pos hstop] at h; simp at h
            · rw [if_neg hstop] at h
              exact ih _ _ _ _ h
          · rw [if_neg hrun] at h
            simp only [Option.some.injEq, Prod.mk.injEq] at h
            obtain ⟨h1, _h2, h3⟩ := h
            subst h1
            exact ⟨hrun, h3.symm⟩

end SchedulerModel

namespace SchedulerModel

/-- Dispatching never removes an identity from the in-flight set. -/
theorem getNextAvailable_preserves_running (s : Sched) (id : String)
    (h : id ∈ s.running) : id ∈ ((getNextAvailable s).2).running := by
  unfold getNextAvailable
  by_cases hlen : s.ids.length = 0
  · simpa [hlen] using h
  · rw [if_neg hlen]
    cases hg : gnaGo s.ids s.running s.cursor s.cursor (s.ids.length + 1) with
    | none => simpa using h
    | some out =>
        obtain ⟨id0, cur', running'⟩ := out
        obtain ⟨_, hrun⟩ := gnaGo_success s.ids s.running s.cursor _ _ _ _ _ hg
        simp [hrun, h]

/-- **C3.** Scheduling exclusion: `getNextAvailable` never returns a tailer
whose identity is marked in-flight — in any scheduler state, a returned
identity was not in `running` and is in `running` in the returned state —
and an in-flight identity stays in-flight under every scheduler operation
other than `SetIdle` or `Remove` for that same identity. Hence at most one
worker holds any given identity at a time. -/
theorem scheduler_exclusion (s : Sched) :
    (∀ id s', getNextAvailable s = (some id, s') →
      id ∉ s.running ∧ id ∈ s'.running) ∧
    (∀ id op, id ∈ s.running → op ≠ SchedOp.setIdle id → op ≠ SchedOp.remove id →
      id ∈ (applySched s op).running) := by
  constructor
  · intro id s' h
    unfold getNextAvailable at h
    by_cases hlen : s.ids.length = 0
    · rw [if_pos hlen] at h
      simp at h
    · rw [if_neg hlen] at h
      cases hg : gnaGo s.ids s.running s.cursor s.cursor (s.ids.length + 1) with
      | none => rw [hg] at h; simp at h
      | some out =>
          obtain ⟨id0, cur', running'⟩ := out
          rw [hg] at h
          simp only [Prod.mk.injEq, Option.some.injEq] at h
          obtain ⟨hid, hs'⟩ := h
          subst hid
          obtain ⟨hnot, hrun⟩ := gnaGo_success s.ids s.running s.cursor _ _ _ _ _ hg
          refine ⟨hnot, ?_⟩
          rw [← hs']
          simp [hrun]
  · intro id op hmem hset hrem
    cases op with
    | add id' update =>
        simp only [applySched, schedAdd]
        by_cases hcase : update = false ∧ id' ∈ s.ids
        · rw [if_pos hcase]; exact hmem
        · rw [if_neg hcase]; exact hmem
    | remove id' =>
        have hne : id ≠ id' := fun h => hrem (by rw [h])
        simp only [applySched, schedRemove]
        cases s.ids.indexOf? id' with
        | none => exact hmem
        | some k =>
            simpa using (List.mem_erase_of_ne hne).mpr hmem
    | setIdle id' =>
        have hne : id ≠ id' := fun h => hset (by rw [h])
        simp only [applySched, schedSetIdle]
        by_cases hin : id' ∈ s.ids
        · rw [if_pos hin]
          simpa using (List.mem_erase_of_ne hne).mpr hmem
        · rw [if_neg hin]; exact hmem
    | next =>
        exact getNextAvailable_preserves_running s id hmem

/-- Witness for `scheduler_exclusion` at a concrete state: with list
`["a", "b"]`, cursor at the front, and `"a"` in-flight, the next available
tailer is `"b"`, which was idle and becomes in-flight; meanwhile the
in-flight `"a"` survives a `SetIdle "b"` and an unrelated `Remove "b"`. -/
theorem scheduler_exclusion_witness :
    let s : Sched := { ids := ["a", "b"], cursor := some 0, running := ["a"] }
    ("b" ∉ s.running ∧ "b" ∈ ((getNextAvailable s).2).running) ∧
    "a" ∈ (applySched s (SchedOp.setIdle "b")).running ∧
    "a" ∈ (applySched s (SchedOp.remove "b")).running := by
  intro s
  have h := scheduler_exclusion s
  refine ⟨?_, ?_, ?_⟩
  · have := h.1 "b" ((getNextAvailable s).2) (by decide)
    exact this
  · exact h.2 "a" (SchedOp.setIdle "b") (by decide) (by decide) (by decide)
  · exact h.2 "a" (SchedOp.remove "b") (by decide) (by decide) (by decide)

end SchedulerModel

namespace TailerModel

/-- Embeds `bytes.Index(s, sep)`: the index of the first occurrence of `sep`
as a contiguous sublist of `s`, or `none` (Go returns `-1`). Go returns `0`
for an empty `sep`, as does this model. -/
def bIndex (sep : List Byte) : List Byte → Option Nat
  | [] => if sep = [] then some 0 else none
  | b :: t => if sep <+: (b :: t) then some 0 else (bIndex sep t).map (· + 1)

theorem bIndex_some_occ {sep : List Byte} :
    ∀ {s : List Byte} {i : Nat}, bIndex sep s = some i → sep <+: s.drop i := by
  intro s
  induction s with
  | nil =>
      intro i h
      by_cases hsep : sep = []
      · simp only [bIndex, if_pos hsep, Option.some.injEq] at h
        simp [← h, hsep]
      · simp [bIndex, hsep] at h
  | cons b t ih =>
      intro i h
      by_cases hpre : sep <+: (b :: t)
      · simp only [bIndex, if_pos hpre, Option.some.injEq] at h
        simpa [← h] using hpre
      · simp only [bIndex, if_neg hpre, Option.map_eq_some'] at h
        obtain ⟨i', hi', rfl⟩ := h
        simpa using ih hi'

theorem bIndex_some_min {sep : List Byte} :
    ∀ {s : List Byte} {i : Nat}, bIndex sep s = some i →
      ∀ j, j < i → ¬ sep <+: s.drop j := by
  intro s
  induction s with
  | nil =>
      intro i h j hj
      by_cases hsep : sep = []
      · simp only [bIndex, if_pos hsep, Option.some.injEq] at h
        omega
      · simp [bIndex, hsep] at h
  | cons b t ih =>
      intro i h j hj
      by_cases hpre : sep <+: (b :: t)
      · simp only [bIndex, if_pos hpre, Option.some.injEq] at h
        omega
      · simp only [bIndex, if_neg hpre, Option.map_eq_some'] at h
        obtain ⟨i', hi', rfl⟩ := h
        cases j with
        | zero => simpa using hpre
        | succ j' => simpa using ih hi' j' (by omega)

theorem bIndex_none {sep : List Byte} :
    ∀ {s : List Byte}, bIndex sep s = none → ∀ j, ¬ sep <+: s.drop j := by
  intro s
  induction s with
  | nil =>
      intro h j
      by_cases hsep : sep = []
      · simp [bIndex, hsep] at h
      · simpa [List.prefix_nil] using hsep
  | cons b t ih =>
      intro h j
      by_cases hpre : sep <+: (b :: t)
      · simp [bIndex, hpre] at h
      · simp only [bIndex, if_neg hpre, Option.map_eq_none'] at h
        cases j with
        | zero => simpa using hpre
        | succ j' => simpa using ih h j'

theorem bIndex_some_of {sep : List Byte} :
    ∀ {s : List Byte} {i : Nat}, sep <+: s.drop i →
      (∀ j, j < i → ¬ sep <+: s.drop j) → bIndex sep s = some i := by
  intro s
  induction s with
  | nil =>
      intro i hpre hmin
      have hsep : sep = [] := by simpa [List.prefix_nil] using hpre
      have hi : i = 0 := by
        by_contra hne
        exact hmin 0 (by omega) (by simp [hsep])
      simp [bIndex, hsep, hi]
  | cons b t ih =>
      intro i hpre hmin
      by_cases hpre0 : sep <+: (b :: t)
      · have hi : i = 0 := by
          by_contra hne
          exact hmin 0 (by omega) (by simpa using hpre0)
        simp [bIndex, hpre0, hi]
      · cases i with
        | zero => exact absurd (by simpa using hpre) hpre0
        | succ i' =>
            have := ih (by simpa using hpre)
              (fun j hj => by simpa using hmin (j + 1) (by omega))
            simp [bIndex, hpre0, this]

/-- An occurrence of a non-empty `sep` at `i` lies within `s`. -/
theorem occur_le {sep s : List Byte} {i : Nat} (hsep : sep ≠ [])
    (h : sep <+: s.drop i) : i + sep.length ≤ s.length := by
  have hi : i ≤ s.length := by
    by_contra hgt
    have : s.drop i = [] := List.drop_eq_nil_of_le (by omega)
    rw [this, List.prefix_nil] at h
    exact hsep h
  have := h.length_le
  rw [List.length_drop] at this
  omega

/-- The last byte of an occurrence of `sep` at `i` is `sep`'s last byte. -/
theorem occur_getElem_last {sep s : List Byte} {i : Nat} (hsep : sep ≠ [])
    (h : sep <+: s.drop i) :
    s[i + sep.length - 1]? = some (sep.getLast hsep) := by
  have hle := occur_le hsep h
  obtain ⟨r, hr⟩ := h
  have hi : i ≤ s.length := by omega
  have hs : s = s.take i ++ (sep ++ r) := by
    rw [hr]; exact (List.take_append_drop i s).symm
  have hlen : (s.take i).length = i := by
    rw [List.length_take]; omega
  have hL : 1 ≤ sep.length := by
    cases sep with
    | nil => exact absurd rfl hsep
    | cons a t => simp
  rw [hs, List.getElem?_append_right (by omega), hlen]
  have hidx : i + sep.length - 1 - i = sep.length - 1 := by omega
  rw [hidx]
  rw [List.getElem?_append, if_pos (by omega)]
  rw [List.getElem?_eq_getElem (by omega)]
  congr 1
  exact (List.getLast_eq_getElem sep hsep).symm

end TailerModel

namespace TailerModel

/-- Embeds `bufio.Reader.ReadBytes(delim)` on the remaining file bytes:
returns the bytes read (up to and including the first `delim`), the
remaining stream, and whether `io.EOF` was returned (which `ReadBytes` does
exactly when no delimiter was found before the end of input). -/
def readBytes (delim : Byte) : List Byte → List Byte × List Byte × Bool
  | [] => ([], [], true)
  | b :: t =>
      if b = delim then ([b], t, false)
      else
        let r := readBytes delim t
        (b :: r.1, r.2.1, r.2.2)

theorem readBytes_append (delim : Byte) :
    ∀ s : List Byte, (readBytes delim s).1 ++ (readBytes delim s).2.1 = s := by
  intro s
  induction s with
  | nil => rfl
  | cons b t ih =>
      by_cases hb : b = delim
      · simp [readBytes, hb]
      · simp only [readBytes, if_neg hb]
        simpa using ih

theorem readBytes_eof (delim : Byte) :
    ∀ s : List Byte, (readBytes delim s).2.2 = true →
      (readBytes delim s).1 = s ∧ (readBytes delim s).2.1 = [] ∧ delim ∉ s := by
  intro s
  induction s with
  | nil => intro _; simp [readBytes]
  | cons b t ih =>
      intro h
      by_cases hb : b = delim
      · simp [readBytes, hb] at h
      · simp only [readBytes, if_neg hb] at h ⊢
        obtain ⟨h1, h2, h3⟩ := ih h
        refine ⟨by simp [h1], h2, ?_⟩
        simp only [List.mem_cons, not_or]
        exact ⟨fun hd => hb hd.symm, h3⟩

theorem readBytes_found (delim : Byte) :
    ∀ s : List Byte, (readBytes delim s).2.2 = false →
      ∃ d₀, (readBytes delim s).1 = d₀ ++ [delim] ∧ delim ∉ d₀ := by
  intro s
  induction s with
  | nil => intro h; simp [readBytes] at h
  | cons b t ih =>
      intro h
      by_cases hb : b = delim
      · exact ⟨[], by simp [readBytes, hb], by simp⟩
      · simp only [readBytes, if_neg hb] at h ⊢
        obtain ⟨d₀, h1, h2⟩ := ih h
        refine ⟨b :: d₀, by simp [h1], ?_⟩
        simp only [List.mem_cons, not_or]
        exact ⟨fun hd => hb hd.symm, h2⟩

theorem readBytes_not_eof_lt (delim : Byte) :
    ∀ s : List Byte, (readBytes delim s).2.2 = false →
      (readBytes delim s).2.1.length < s.length := by
  intro s h
  obtain ⟨d₀, h1, _⟩ := readBytes_found delim s h
  have := readBytes_append delim s
  have hlen : (readBytes delim s).1.length + (readBytes delim s).2.1.length
      = s.length := by
    conv_rhs => rw [← this]
    rw [List.length_append]
  rw [h1] at hlen
  simp only [List.length_append, List.length_singleton] at hlen
  omega

/-- Result of one `readNextChunk` call: a complete chunk together with the
updated internal buffer and remaining stream, an `io.EOF` return with the
buffer as the code leaves it, or the non-empty-separator error. -/
inductive ChunkResult where
  | chunk (c buf' stream' : List Byte)
  | eof (buf' : List Byte)
  | emptySepErr
  deriving DecidableEq, Repr

/-- Embeds `TailReader.readNextChunk`:
```
sep := []byte(t.Separator)
if len(sep) == 0 { return nil, errors.New("separator must not be empty") }
for {
    if idx := bytes.Index(t.buf, sep); idx >= 0 {
        end := idx + len(sep)
        chunk := t.buf[:end]; t.buf = t.buf[end:]
        return chunk, nil
    }
    data, err := t.reader.ReadBytes(sep[len(sep)-1])
    t.buf = append(t.buf, data...)
    if err != nil {
        if err == io.EOF { return nil, io.EOF }
        return nil, err
    }
}
```
`buf` is `t.buf`, `stream` is the unread remainder of the file. -/
def readNextChunk (sep buf stream : List Byte) : ChunkResult :=
  if hsep : sep = [] then .emptySepErr
  else
    match bIndex sep buf with
    | some idx =>
        .chunk (buf.take (idx + sep.length)) (buf.drop (idx + sep.length)) stream
    | none =>
        let r := readBytes (sep.getLast hsep) stream
        if heof : r.2.2 = true then .eof (buf ++ r.1)
        else readNextChunk sep (buf ++ r.1) r.2.1
termination_by stream.length
decreasing_by
  exact readBytes_not_eof_lt (sep.getLast hsep) stream (by simpa using heof)

end TailerModel

namespace TailerModel

/-- A prefix of `x ++ y` no longer than `x` is a prefix of `x`. -/
theorem prefix_of_prefix_append {sep x y : List Byte}
    (h : sep <+: x ++ y) (hlen : sep.length ≤ x.length) : sep <+: x := by
  obtain ⟨r, hr⟩ := h
  have htk : (x ++ y).take sep.length = sep := by
    rw [← hr]; exact List.take_left sep r
  rw [List.take_append_of_le_length hlen] at htk
  exact htk ▸ List.take_prefix sep.length x

/-- In `d₀ ++ [delim]` with `delim ∉ d₀`, the only position holding `delim`
is the last one. -/
theorem getElem_delim_unique {d₀ : List Byte} {delim : Byte} {k : Nat}
    (hnotin : delim ∉ d₀) (h : (d₀ ++ [delim])[k]? = some delim) :
    k = d₀.length := by
  rcases Nat.lt_trichotomy k d₀.length with hlt | heq | hgt
  · exfalso
    rw [List.getElem?_append, if_pos hlt] at h
    exact hnotin (List.getElem?_mem h)
  · exact heq
  · exfalso
    have : (d₀ ++ [delim])[k]? = none :=
      List.getElem?_eq_none (by simp; omega)
    rw [this] at h
    exact Option.noConfusion h

/-- Invariant of the chunk-extraction loop: any occurrence of `sep` in the
internal buffer ends exactly at the end of the buffer (in particular the
buffer holds no separator strictly inside, because every appended read ends
at the first occurrence of `sep`'s last byte). -/
def HBuf (sep buf : List Byte) : Prop :=
  ∀ i, bIndex sep buf = some i → i + sep.length = buf.length

/-- Characterization of `readNextChunk`: under the loop invariant `HBuf`,
the call extracts exactly the bytes up to and including the first occurrence
of `sep` in `buf ++ stream` (leaving an empty buffer and the rest of the
stream), or returns EOF with everything buffered when there is no
occurrence. -/
theorem readNextChunk_eq {sep : List Byte} (hsep : sep ≠ []) :
    ∀ (stream buf : List Byte), HBuf sep buf →
      readNextChunk sep buf stream =
        match bIndex sep (buf ++ stream) with
        | some i => .chunk ((buf ++ stream).take (i + sep.length)) []
                           ((buf ++ stream).drop (i + sep.length))
        | none => .eof (buf ++ stream) := by
  suffices h : ∀ n stream buf, stream.length ≤ n → HBuf sep buf →
      readNextChunk sep buf stream =
        match bIndex sep (buf ++ stream) with
        | some i => .chunk ((buf ++ stream).take (i + sep.length)) []
                           ((buf ++ stream).drop (i + sep.length))
        | none => .eof (buf ++ stream) by
    exact fun stream buf hb => h stream.length stream buf le_rfl hb
  intro n
  induction n using Nat.strong_induction_on with
  | _ n ih =>
      intro stream buf hlen hb
      rw [readNextChunk, dif_neg hsep]
      have hL : 1 ≤ sep.length := by
        cases sep with
        | nil => exact absurd rfl hsep
        | cons a t => simp
      cases hidx : bIndex sep buf with
      | some i =>
          have hiL := hb i hidx
          have hpre := bIndex_some_occ hidx
          have hile : i ≤ buf.length := by omega
          have hfull : bIndex sep (buf ++ stream) = some i := by
            apply bIndex_some_of
            · rw [List.drop_append_of_le_length hile]
              exact hpre.trans (List.prefix_append _ _)
            · intro j hj hpre'
              have hdropj : (buf ++ stream).drop j = buf.drop j ++ stream :=
                List.drop_append_of_le_length (by omega)
              rw [hdropj] at hpre'
              have hinside : sep <+: buf.drop j := by
                apply prefix_of_prefix_append hpre'
                rw [List.length_drop]
                omega
              exact bIndex_some_min hidx j hj hinside
          rw [hfull]
          have htake : (buf ++ stream).take (i + sep.length) = buf.take (i + sep.length) :=
            List.take_append_of_le_length (by omega)
          have hdropbuf : buf.drop (i + sep.length) = [] := by
            rw [hiL]; exact List.drop_length buf
          have hdropall : (buf ++ stream).drop (i + sep.length) = stream := by
            rw [hiL]; exact List.drop_left buf stream
          dsimp only
          rw [htake, hdropbuf, hdropall]
      | none =>
          dsimp only
          by_cases heof : (readBytes (sep.getLast hsep) stream).2.2 = true
          · rw [dif_pos heof]
            obtain ⟨hdata, _, hnotin⟩ := readBytes_eof _ stream heof
            have hnone : bIndex sep (buf ++ stream) = none := by
              cases hfull : bIndex sep (buf ++ stream) with
              | none => rfl
              | some j =>
                  exfalso
                  have hpre := bIndex_some_occ hfull
                  by_cases hcase : j + sep.length ≤ buf.length
                  · have hdropj : (buf ++ stream).drop j = buf.drop j ++ stream :=
                      List.drop_append_of_le_length (by omega)
                    rw [hdropj] at hpre
                    have hinside : sep <+: buf.drop j := by
                      apply prefix_of_prefix_append hpre
                      rw [List.length_drop]
                      omega
                    exact bIndex_none hidx j hinside
                  · have hlast := occur_getElem_last hsep hpre
                    have hble := occur_le hsep hpre
                    rw [List.length_append] at hble
                    have hge : buf.length ≤ j + sep.length - 1 := by omega
                    rw [List.getElem?_append_right hge] at hlast
                    exact hnotin (List.getElem?_mem hlast)
            rw [hnone, hdata]
          · rw [dif_neg heof]
            have heof' : (readBytes (sep.getLast hsep) stream).2.2 = false := by
              simpa using heof
            obtain ⟨d₀, hd, hnotin⟩ := readBytes_found _ stream heof'
            have hrest := readBytes_append (sep.getLast hsep) stream
            have hb' : HBuf sep (buf ++ (readBytes (sep.getLast hsep) stream).1) := by
              intro i hidx'
              have hpre := bIndex_some_occ hidx'
              by_cases hcase : i + sep.length ≤ buf.length
              · exfalso
                have hdropj : (buf ++ (readBytes (sep.getLast hsep) stream).1).drop i
                    = buf.drop i ++ (readBytes (sep.getLast hsep) stream).1 :=
                  List.drop_append_of_le_length (by omega)
                rw [hdropj] at hpre
                have hinside : sep <+: buf.drop i := by
                  apply prefix_of_prefix_append hpre
                  rw [List.length_drop]
                  omega
                exact bIndex_none hidx i hinside
              · have hlast := occur_getElem_last hsep hpre
                have hble := occur_le hsep hpre
                rw [List.length_append] at hble
                have hge : buf.length ≤ i + sep.length - 1 := by omega
                rw [List.getElem?_append_right hge] at hlast
                rw [hd] at hlast
                have hk := getElem_delim_unique hnotin hlast
                have hdlen : (readBytes (sep.getLast hsep) stream).1.length
                    = d₀.length + 1 := by
                  rw [hd]; simp
                rw [List.length_append, hdlen]
                omega
            have hlt : (readBytes (sep.getLast hsep) stream).2.1.length < n := by
              have := readBytes_not_eof_lt (sep.getLast hsep) stream heof'
              omega
            have hrec := ih _ hlt (readBytes (sep.getLast hsep) stream).2.1
              (buf ++ (readBytes (sep.getLast hsep) stream).1) le_rfl hb'
            rw [hrec]
            rw [List.append_assoc, hrest]

end TailerModel

namespace TailerModel

/-- A successful chunk extraction conserves bytes and yields a non-empty
chunk (regardless of any invariant). -/
theorem readNextChunk_conservation {sep : List Byte} :
    ∀ (stream buf c buf' stream' : List Byte),
      readNextChunk sep buf stream = .chunk c buf' stream' →
      1 ≤ c.length ∧
      c.length + buf'.length + stream'.length = buf.length + stream.length := by
  suffices hstrong : ∀ n stream buf c buf' stream', stream.length ≤ n →
      readNextChunk sep buf stream = .chunk c buf' stream' →
      1 ≤ c.length ∧
      c.length + buf'.length + stream'.length = buf.length + stream.length by
    exact fun stream buf c buf' stream' h =>
      hstrong stream.length stream buf c buf' stream' le_rfl h
  intro n
  induction n using Nat.strong_induction_on with
  | _ n ih =>
      intro stream buf c buf' stream' hlen h
      rw [readNextChunk] at h
      by_cases hsep : sep = []
      · rw [dif_pos hsep] at h
        exact absurd h (by simp)
      · rw [dif_neg hsep] at h
        have hL : 1 ≤ sep.length := by
          cases sep with
          | nil => exact absurd rfl hsep
          | cons a t => simp
        cases hidx : bIndex sep buf with
        | some i =>
            rw [hidx] at h
            dsimp only at h
            cases h
            have hle := occur_le hsep (bIndex_some_occ hidx)
            constructor
            · rw [List.length_take]
              omega
            · rw [List.length_take, List.length_drop]
              omega
        | none =>
            rw [hidx] at h
            dsimp only at h
            by_cases heof : (readBytes (sep.getLast hsep) stream).2.2 = true
            · rw [dif_pos heof] at h
              exact absurd h (by simp)
            · rw [dif_neg heof] at h
              have heof' : (readBytes (sep.getLast hsep) stream).2.2 = false := by
                simpa using heof
              have hlt := readBytes_not_eof_lt (sep.getLast hsep) stream heof'
              have hcons := readBytes_append (sep.getLast hsep) stream
              have hrec := ih (readBytes (sep.getLast hsep) stream).2.1.length
                (by omega) _ _ _ _ _ le_rfl h
              obtain ⟨h1, h2⟩ := hrec
              refine ⟨h1, ?_⟩
              have : (readBytes (sep.getLast hsep) stream).1.length
                  + (readBytes (sep.getLast hsep) stream).2.1.length = stream.length := by
                conv_rhs => rw [← hcons]
                rw [List.length_append]
              rw [List.length_append] at h2
              omega

/-- The greedy chunk decomposition of a byte stream: repeatedly cut at the
first occurrence of `sep` (terminator included); the second component is the
terminator-free tail. This is the decomposition the specification describes
("zero or more complete separator-terminated chunks followed by an optional
partial tail without a terminator"). -/
def chunksOf (sep s : List Byte) : List (List Byte) × List Byte :=
  if hsep : sep = [] then ([], s)
  else
    match hidx : bIndex sep s with
    | none => ([], s)
    | some i =>
        let r := chunksOf sep (s.drop (i + sep.length))
        (s.take (i + sep.length) :: r.1, r.2)
termination_by s.length
decreasing_by
  have hle := occur_le hsep (bIndex_some_occ hidx)
  have hL : 1 ≤ sep.length := by
    cases sep with
    | nil => exact absurd rfl hsep
    | cons a t => simp
  rw [List.length_drop]
  omega

/-- Embeds the non-multiline loop of `TailReader.ReadOnce`:
```
for {
    chunk, err := t.readNextChunk()
    if err != nil {
        if err == io.EOF { return nil }
        return err
    }
    sep := []byte(t.Separator)
    line := chunk
    if len(chunk) >= len(sep) { line = chunk[:len(chunk)-len(sep)] }
    if len(chunk) > len(sep) { callback(string(line)) }
    t.Offset += int64(len(chunk))
}
```
Returns the emitted lines in order, the final `t.Offset`, and the residual
internal buffer at return (which `cleanup` discards without advancing the
offset). -/
def readOnceNM (sep : List Byte) (offset : Nat) (buf stream : List Byte) :
    List (List Byte) × Nat × List Byte :=
  match h : readNextChunk sep buf stream with
  | .emptySepErr => ([], offset, buf)
  | .eof buf' => ([], offset, buf')
  | .chunk c buf' stream' =>
      let line := if sep.length ≤ c.length then c.take (c.length - sep.length) else c
      let rest := readOnceNM sep (offset + c.length) buf' stream'
      (if sep.length < c.length then line :: rest.1 else rest.1, rest.2)
termination_by buf.length + stream.length
decreasing_by
  have := readNextChunk_conservation stream buf _ _ _ h
  omega

end TailerModel

namespace TailerModel

/-- The empty buffer trivially satisfies the loop invariant. -/
theorem hbuf_nil {sep : List Byte} (hsep : sep ≠ []) : HBuf sep [] := by
  intro i h
  simp [bIndex, hsep] at h

/-- Unfolding of `chunksOf` when no separator occurs. -/
theorem chunksOf_none {sep s : List Byte} (hsep : sep ≠ [])
    (h : bIndex sep s = none) : chunksOf sep s = ([], s) := by
  rw [chunksOf, dif_neg hsep]
  split
  · rfl
  · rename_i i heq
    rw [h] at heq
    exact absurd heq (by simp)

/-- Unfolding of `chunksOf` at the first separator occurrence. -/
theorem chunksOf_some {sep s : List Byte} {i : Nat} (hsep : sep ≠ [])
    (h : bIndex sep s = some i) :
    chunksOf sep s =
      (s.take (i + sep.length) :: (chunksOf sep (s.drop (i + sep.length))).1,
       (chunksOf sep (s.drop (i + sep.length))).2) := by
  rw [chunksOf, dif_neg hsep]
  split
  · rename_i heq
    rw [h] at heq
    exact absurd heq (by simp)
  · rename_i i' heq
    rw [h] at heq
    have : i' = i := by
      have := heq
      simp only [Option.some.injEq] at this
      omega
    subst this
    rfl

/-- **C1.** Non-multiline `ReadOnce`: decompose the bytes at the current
offset into complete separator-terminated chunks followed by the partial
tail (the greedy decomposition `chunksOf`). `ReadOnce` emits, in order,
exactly the bodies (chunk minus trailing separator) of the chunks with
non-empty bodies, advances the offset by `len(chunk)` for every complete
chunk — including separator-only blank chunks — and returns at EOF leaving
the partial tail in the internal buffer: not emitted, and the offset not
advanced by it. -/
theorem tailer_readOnce_non_multiline (sep : List Byte) (hsep : sep ≠ []) :
    ∀ (stream : List Byte) (offset : Nat),
      readOnceNM sep offset [] stream =
        ((((chunksOf sep stream).1.map
              (fun c => c.take (c.length - sep.length))).filter
            (fun b => !b.isEmpty)),
         offset + ((chunksOf sep stream).1.map List.length).sum,
         (chunksOf sep stream).2) := by
  have hL : 1 ≤ sep.length := by
    cases sep with
    | nil => exact absurd rfl hsep
    | cons a t => simp
  suffices hstrong : ∀ n stream offset, stream.length ≤ n →
      readOnceNM sep offset [] stream =
        ((((chunksOf sep stream).1.map
              (fun c => c.take (c.length - sep.length))).filter
            (fun b => !b.isEmpty)),
         offset + ((chunksOf sep stream).1.map List.length).sum,
         (chunksOf sep stream).2) by
    exact fun stream offset => hstrong stream.length stream offset le_rfl
  intro n
  induction n using Nat.strong_induction_on with
  | _ n ih =>
      intro stream offset hlen
      have hrnc := readNextChunk_eq hsep stream [] (hbuf_nil hsep)
      rw [List.nil_append] at hrnc
      rw [readOnceNM]
      split
      · rename_i heq
        rw [hrnc] at heq
        cases hidx : bIndex sep stream with
        | some i => rw [hidx] at heq; simp at heq
        | none => rw [hidx] at heq; simp at heq
      · rename_i buf' heq
        rw [hrnc] at heq
        cases hidx : bIndex sep stream with
        | some i => rw [hidx] at heq; simp at heq
        | none =>
            rw [hidx] at heq
            dsimp only at heq
            cases heq
            rw [chunksOf_none hsep hidx]
            simp
      · rename_i c buf' stream' heq
        rw [hrnc] at heq
        cases hidx : bIndex sep stream with
        | none => rw [hidx] at heq; simp at heq
        | some i =>
            rw [hidx] at heq
            dsimp only at heq
            cases heq
            have hle := occur_le hsep (bIndex_some_occ hidx)
            have hclen : (stream.take (i + sep.length)).length = i + sep.length := by
              rw [List.length_take]; omega
            have hlt : (stream.drop (i + sep.length)).length < n := by
              rw [List.length_drop]; omega
            have hrec := ih _ hlt (stream.drop (i + sep.length))
              (offset + (stream.take (i + sep.length)).length) le_rfl
            rw [hrec, chunksOf_some hsep hidx]
            dsimp only
            rw [List.map_cons, List.map_cons, List.filter_cons, List.sum_cons]
            have hline : (if sep.length ≤ (stream.take (i + sep.length)).length
                then (stream.take (i + sep.length)).take
                  ((stream.take (i + sep.length)).length - sep.length)
                else stream.take (i + sep.length))
                = (stream.take (i + sep.length)).take
                  ((stream.take (i + sep.length)).length - sep.length) := by
              rw [if_pos (by rw [hclen]; omega)]
            rw [hline]
            by_cases hemit : sep.length < (stream.take (i + sep.length)).length
            · rw [if_pos hemit]
              have hbody : (!((stream.take (i + sep.length)).take
                  ((stream.take (i + sep.length)).length - sep.length)).isEmpty) = true := by
                rw [hclen] at hemit
                cases hE : (stream.take (i + sep.length)).take
                    ((stream.take (i + sep.length)).length - sep.length) with
                | nil =>
                    exfalso
                    have : ((stream.take (i + sep.length)).take
                        ((stream.take (i + sep.length)).length - sep.length)).length = 0 := by
                      rw [hE]; rfl
                    simp only [List.length_take] at this
                    omega
                | cons a t => rfl
              rw [hbody, if_pos rfl]
              rw [Nat.add_assoc]
            · rw [if_neg hemit]
              have hbody : (!((stream.take (i + sep.length)).take
                  ((stream.take (i + sep.length)).length - sep.length)).isEmpty) = false := by
                rw [hclen] at hemit
                cases hE : (stream.take (i + sep.length)).take
                    ((stream.take (i + sep.length)).length - sep.length) with
                | nil => rfl
                | cons a t =>
                    exfalso
                    have : ((stream.take (i + sep.length)).take
                        ((stream.take (i + sep.length)).length - sep.length)).length = t.length + 1 := by
                      rw [hE]; rfl
                    simp only [List.length_take] at this
                    omega
              rw [hbody, if_neg (by simp)]
              rw [Nat.add_assoc]

end TailerModel

namespace TailerModel

/-- Witness for `tailer_readOnce_non_multiline`: separator `"\n"`, file
remainder `"a\n\nb"`. The two complete chunks are `"a\n"` and the blank
`"\n"`; `ReadOnce` emits only `"a"`, advances the offset by 3 (both chunk
lengths), and leaves the tail `"b"` unconsumed. -/
theorem tailer_readOnce_non_multiline_witness :
    ([10] : List Byte) ≠ [] ∧
    readOnceNM [10] 0 [] [97, 10, 10, 98] = ([[97]], 3, [98]) := by
  refine ⟨by decide, ?_⟩
  have h := tailer_readOnce_non_multiline [10] (by decide) [97, 10, 10, 98] 0
  have ec : chunksOf [10] [98] = ([], [98]) :=
    chunksOf_none (by decide) (by decide)
  have eb : chunksOf [10] [10, 98] = ([[10]], [98]) := by
    rw [chunksOf_some (by decide)
      (show bIndex [10] [10, 98] = some 0 by decide)]
    rw [show List.drop (0 + List.length [10]) ([10, 98] : List Byte) = [98] from rfl]
    rw [ec]
    decide
  have ea : chunksOf [10] [97, 10, 10, 98] = ([[97, 10], [10]], [98]) := by
    rw [chunksOf_some (by decide)
      (show bIndex [10] [97, 10, 10, 98] = some 1 by decide)]
    rw [show List.drop (1 + List.length [10]) ([97, 10, 10, 98] : List Byte)
        = [10, 98] from rfl]
    rw [eb]
    decide
  rw [h, ea]
  decide

end TailerModel

namespace TailerModel

/-- State of a `tailer.MultilineReader` relevant to `Write`/`Read`/`Flush`:
the current assembling record `buf` and the `queue` of completed records.
The timeout goroutine, output channel and `last` timestamp drive
time-triggered flushing only and are outside this model; `Validate`/`init`
guarantee both regexes are compiled, so the `startRe`/`re` nil checks inside
`Write` always take the non-nil branch, and the two patterns are modelled by
total predicates `startMatch`/`condMatch`. -/
structure MLState where
  buf : List Byte
  queue : List (List Byte)
  deriving DecidableEq, Repr

/-- Embeds `tailer.appendWithNL`: join with a single `'\n'` (byte 10) unless
the accumulator is empty. -/
def appendWithNL (dst line : List Byte) : List Byte :=
  if dst.isEmpty then dst ++ line
  else dst ++ [10] ++ line

/-- Embeds `MultilineReader.enqueueAndResetLocked`: move a non-empty `buf`
to the back of `queue`. -/
def enqueueAndReset (st : MLState) : MLState :=
  if st.buf.isEmpty then st
  else { buf := [], queue := st.queue ++ [st.buf] }

/-- Embeds `MultilineReader.Write` (after a successful `init`). The Go
`switch m.Mode` over the four mode strings, with the default branch for any
other mode. -/
def mlWrite (mode : String) (startMatch condMatch : List Byte → Bool)
    (st : MLState) (line : List Byte) : MLState :=
  if st.buf.isEmpty then
    if startMatch line then { st with buf := line }
    else { st with queue := st.queue ++ [line] }
  else
    let condHit := condMatch line
    if mode = "continuePast" then
      if condHit then { st with buf := appendWithNL st.buf line }
      else enqueueAndReset { st with buf := appendWithNL st.buf line }
    else if mode = "continueThrough" then
      if condHit then { st with buf := appendWithNL st.buf line }
      else
        let st' := enqueueAndReset st
        if startMatch line then { st' with buf := line }
        else { st' with queue := st'.queue ++ [line] }
    else if mode = "haltBefore" then
      if condHit then
        let st' := enqueueAndReset st
        if startMatch line then { st' with buf := line }
        else { st' with queue := st'.queue ++ [line] }
      else { st with buf := appendWithNL st.buf line }
    else if mode = "haltWith" then
      if condHit then enqueueAndReset { st with buf := appendWithNL st.buf line }
      else { st with buf := appendWithNL st.buf line }
    else
      { enqueueAndReset st with buf := line }

/-- Embeds `MultilineReader.Flush`: promote the current buffer, if any. -/
def mlFlush (st : MLState) : MLState :=
  if st.buf.isEmpty then st else enqueueAndReset st

/-- Embeds `MultilineReader.Read`: pop the next completed record. -/
def mlRead (st : MLState) : Option (List Byte) × MLState :=
  match st.queue with
  | [] => (none, st)
  | r :: rest => (some r, { st with queue := rest })

/-- Embeds the multiline loop of `TailReader.ReadOnce`: every complete chunk
is stripped of its separator and fed to the aggregator, ready records are
drained to the callback, and the offset advances by the chunk length. At
EOF, residual buffered bytes (if any) are fed as a final line with the
offset advanced by their length, then `Flush` is called and the remaining
records drained. Returns the emitted records, the final offset, and the
final aggregator state. -/
def readOnceML (mode : String) (startMatch condMatch : List Byte → Bool)
    (sep : List Byte) (offset : Nat) (buf stream : List Byte) (st : MLState) :
    List (List Byte) × Nat × MLState :=
  match h : readNextChunk sep buf stream with
  | .emptySepErr => ([], offset, st)
  | .eof buf' =>
      if buf'.isEmpty then
        let st1 := mlFlush st
        (st1.queue, offset, { st1 with queue := [] })
      else
        let st1 := mlWrite mode startMatch condMatch st buf'
        let st2 := mlFlush st1
        (st2.queue, offset + buf'.length, { st2 with queue := [] })
  | .chunk c buf' stream' =>
      let line := if sep.length ≤ c.length then c.take (c.length - sep.length) else c
      let st1 := mlWrite mode startMatch condMatch st line
      let rest := readOnceML mode startMatch condMatch sep (offset + c.length)
        buf' stream' { st1 with queue := [] }
      (st1.queue ++ rest.1, rest.2)
termination_by buf.length + stream.length
decreasing_by
  have := readNextChunk_conservation stream buf _ _ _ h
  omega

end TailerModel

namespace TailerModel

/-- A non-multiline `ReadOnce` never decreases the offset. -/
theorem readOnceNM_offset_le (sep : List Byte) :
    ∀ (buf stream : List Byte) (offset : Nat),
      offset ≤ (readOnceNM sep offset buf stream).2.1 := by
  suffices hstrong : ∀ n buf stream offset, buf.length + stream.length ≤ n →
      offset ≤ (readOnceNM sep offset buf stream).2.1 by
    exact fun buf stream offset => hstrong (buf.length + stream.length) buf stream offset le_rfl
  intro n
  induction n using Nat.strong_induction_on with
  | _ n ih =>
      intro buf stream offset hlen
      rw [readOnceNM]
      split
      · exact le_rfl
      · exact le_rfl
      · rename_i c buf' stream' heq
        have hcons := readNextChunk_conservation stream buf _ _ _ heq
        have hlt : buf'.length + stream'.length < n := by omega
        have := ih _ hlt buf' stream' (offset + c.length) le_rfl
        dsimp only
        omega

/-- A multiline `ReadOnce` never decreases the offset. -/
theorem readOnceML_offset_le (mode : String)
    (startMatch condMatch : List Byte → Bool) (sep : List Byte) :
    ∀ (buf stream : List Byte) (st : MLState) (offset : Nat),
      offset ≤ (readOnceML mode startMatch condMatch sep offset buf stream st).2.1 := by
  suffices hstrong : ∀ n buf stream st offset, buf.length + stream.length ≤ n →
      offset ≤ (readOnceML mode startMatch condMatch sep offset buf stream st).2.1 by
    exact fun buf stream st offset =>
      hstrong (buf.length + stream.length) buf stream st offset le_rfl
  intro n
  induction n using Nat.strong_induction_on with
  | _ n ih =>
      intro buf stream st offset hlen
      rw [readOnceML]
      split
      · exact le_rfl
      · rename_i buf' heq
        by_cases hres : buf'.isEmpty
        · rw [if_pos hres]
        · rw [if_neg hres]; dsimp only; omega
      · rename_i c buf' stream' heq
        have hcons := readNextChunk_conservation stream buf _ _ _ heq
        have hlt : buf'.length + stream'.length < n := by omega
        dsimp only
        exact le_trans (by omega : offset ≤ offset + c.length)
          (ih _ hlt buf' stream' _ (offset + c.length) le_rfl)

end TailerModel

namespace CollectorModel

open TailerModel

/-- The per-identity offset state a collector worker manipulates within one
tracking lifetime: the `TailReader.Offset` field of the tailer it services,
and the `Offset` of that identity's `FileTracker` entry. -/
structure OffsetState where
  tailerOff : Nat
  regOff : Nat
  deriving DecidableEq, Repr

/-- The operations of one tracking lifetime that touch these offsets
(`collector.worker`):
* a successful `fileTail.ReadOnce` (non-multiline or multiline), which
  replaces the tailer offset with the offset `ReadOnce` returns on the bytes
  `stream` present past the current offset;
* the subsequent `c.fileManager.UpdateOffset(fileTail.FileId, fileTail.Offset)`,
  which copies the tailer offset into the registry entry. -/
inductive OffsetStep : OffsetState → OffsetState → Prop
  | readNM (sep stream : List Byte) (t r : Nat) :
      OffsetStep ⟨t, r⟩ ⟨(readOnceNM sep t [] stream).2.1, r⟩
  | readML (mode : String) (startMatch condMatch : List Byte → Bool)
      (sep stream : List Byte) (st : MLState) (t r : Nat) :
      OffsetStep ⟨t, r⟩
        ⟨(readOnceML mode startMatch condMatch sep t [] stream st).2.1, r⟩
  | commit (t r : Nat) : OffsetStep ⟨t, r⟩ ⟨t, t⟩

/-- **C2.** Monotonic offset: within one tracking lifetime starting with the
registry offset equal to at most the tailer offset (they are equal at
construction), every sequence of successful reads and offset commits leaves
both the tailer offset and the registry offset non-decreasing, and the
registry offset never exceeds the tailer offset. In particular, for
successful read completions at `t1 < t2`, `offset(t2) ≥ offset(t1)`, and no
tailer or worker operation ever decreases a tracked file's offset. -/
theorem collector_offset_monotonic (s s' : OffsetState)
    (hinv : s.regOff ≤ s.tailerOff)
    (hsteps : Relation.ReflTransGen OffsetStep s s') :
    s.tailerOff ≤ s'.tailerOff ∧ s.regOff ≤ s'.regOff ∧
    s'.regOff ≤ s'.tailerOff := by
  induction hsteps with
  | refl => exact ⟨le_rfl, le_rfl, hinv⟩
  | tail hab hbc ih =>
      obtain ⟨h1, h2, h3⟩ := ih
      cases hbc with
      | readNM sep stream t r =>
          have hr := readOnceNM_offset_le sep [] stream t
          exact ⟨le_trans h1 hr, h2, le_trans h3 hr⟩
      | readML mode sm cm sep stream st t r =>
          have hr := readOnceML_offset_le mode sm cm sep [] stream st t
          exact ⟨le_trans h1 hr, h2, le_trans h3 hr⟩
      | commit t r =>
          exact ⟨h1, le_trans h2 h3, le_rfl⟩

/-- Witness for `collector_offset_monotonic`: starting at tailer offset 0
and registry offset 0, a successful non-multiline read of `"a\n"` followed
by a commit reaches tailer offset 2 and registry offset 2, with both
components non-decreasing throughout. -/
theorem collector_offset_monotonic_witness :
    0 ≤ 2 ∧ (0 : Nat) ≤ 2 ∧ (2 : Nat) ≤ 2 := by
  have hread : OffsetStep ⟨0, 0⟩ ⟨(readOnceNM [10] 0 [] [97, 10]).2.1, 0⟩ :=
    OffsetStep.readNM [10] [97, 10] 0 0
  have hoff : (readOnceNM [10] 0 [] [97, 10]).2.1 = 2 := by
    have h := tailer_readOnce_non_multiline [10] (by decide) [97, 10] 0
    have ec : chunksOf [10] ([] : List Byte) = ([], []) :=
      chunksOf_none (by decide) (by decide)
    have ea : chunksOf [10] [97, 10] = ([[97, 10]], []) := by
      rw [chunksOf_some (by decide)
        (show bIndex [10] [97, 10] = some 1 by decide)]
      rw [show List.drop (1 + List.length [10]) ([97, 10] : List Byte)
          = [] from rfl]
      rw [ec]
      decide
    rw [h, ea]
    decide
  have hstep1 : OffsetStep ⟨0, 0⟩ ⟨2, 0⟩ := by
    rw [← hoff]
    exact hread
  have hstep2 : OffsetStep ⟨2, 0⟩ ⟨2, 2⟩ := OffsetStep.commit 2 0
  have hsteps : Relation.ReflTransGen OffsetStep ⟨0, 0⟩ ⟨2, 2⟩ :=
    Relation.ReflTransGen.tail (Relation.ReflTransGen.single hstep1) hstep2
  exact collector_offset_monotonic ⟨0, 0⟩ ⟨2, 2⟩ (by simp) hsteps

end CollectorModel

namespace TailerModel

/-- **C5.** `ContinueThrough` mode of `MultilineReader.Write`: with an empty
buffer, a line matching `startPattern` begins a record and any other line is
emitted immediately as a standalone record; with a non-empty buffer, a line
matching `conditionPattern` is appended joined by a single `"\n"`, while a
non-matching line causes the buffer to be emitted as one record, after which
the line begins a new record if it matches `startPattern` and is otherwise
emitted as a standalone record. -/
theorem multiline_continueThrough (startMatch condMatch : List Byte → Bool)
    (st : MLState) (line : List Byte) :
    (st.buf = [] →
      (startMatch line = true →
        mlWrite "continueThrough" startMatch condMatch st line
          = { st with buf := line }) ∧
      (startMatch line = false →
        mlWrite "continueThrough" startMatch condMatch st line
          = { st with queue := st.queue ++ [line] })) ∧
    (st.buf ≠ [] →
      (condMatch line = true →
        mlWrite "continueThrough" startMatch condMatch st line
          = { st with buf := st.buf ++ [10] ++ line }) ∧
      (condMatch line = false → startMatch line = true →
        mlWrite "continueThrough" startMatch condMatch st line
          = { buf := line, queue := st.queue ++ [st.buf] }) ∧
      (condMatch line = false → startMatch line = false →
        mlWrite "continueThrough" startMatch condMatch st line
          = { buf := [], queue := st.queue ++ [st.buf, line] })) := by
  constructor
  · intro hempty
    have hb : st.buf.isEmpty = true := by simp [hempty]
    constructor
    · intro hstart
      simp [mlWrite, hb, hstart]
    · intro hstart
      simp [mlWrite, hb, hstart]
  · intro hne
    have hb : st.buf.isEmpty = false := by simpa using hne
    refine ⟨?_, ?_, ?_⟩
    · intro hcond
      simp [mlWrite, hb, hcond, appendWithNL]
    · intro hcond hstart
      simp [mlWrite, hb, hcond, hstart, enqueueAndReset]
    · intro hcond hstart
      simp [mlWrite, hb, hcond, hstart, enqueueAndReset]

/-- Witness for `multiline_continueThrough` with concrete predicates
(`startPattern` ≙ "first byte is `I`", `conditionPattern` ≙ "first byte is a
space"), exercising all branch hypotheses: start line `"I"` begins a record;
a continuation line `" a"` is joined with `"\n"`; the non-matching,
non-start line `"x"` closes the buffer and is emitted standalone. -/
theorem multiline_continueThrough_witness :
    let startMatch : List Byte → Bool := fun l => l.headD 0 == 73
    let condMatch : List Byte → Bool := fun l => l.headD 0 == 32
    mlWrite "continueThrough" startMatch condMatch ⟨[], []⟩ [73]
      = ⟨[73], []⟩ ∧
    mlWrite "continueThrough" startMatch condMatch ⟨[73], []⟩ [32, 97]
      = ⟨[73, 10, 32, 97], []⟩ ∧
    mlWrite "continueThrough" startMatch condMatch ⟨[73, 10, 32, 97], []⟩ [120]
      = ⟨[], [[73, 10, 32, 97], [120]]⟩ := by
  intro startMatch condMatch
  refine ⟨?_, ?_, ?_⟩
  · exact ((multiline_continueThrough startMatch condMatch ⟨[], []⟩ [73]).1
      (by decide)).1 (by decide)
  · have h := ((multiline_continueThrough startMatch condMatch
      ⟨[73], []⟩ [32, 97]).2 (by decide)).1 (by decide)
    rw [h]
    decide
  · have h := (((multiline_continueThrough startMatch condMatch
      ⟨[73, 10, 32, 97], []⟩ [120]).2 (by decide)).2.2) (by decide) (by decide)
    rw [h]
    decide

end TailerModel

namespace TailerModel

/-- The per-chunk phase of the multiline `ReadOnce` loop, expressed over the
chunk list: strip the separator from each chunk, feed it to the aggregator,
and drain the ready queue. -/
def mlFeedChunks (mode : String) (startMatch condMatch : List Byte → Bool)
    (sep : List Byte) : List (List Byte) → MLState → List (List Byte) × MLState
  | [], st => ([], st)
  | c :: cs, st =>
      let line := if sep.length ≤ c.length then c.take (c.length - sep.length) else c
      let st1 := mlWrite mode startMatch condMatch st line
      let rest := mlFeedChunks mode startMatch condMatch sep cs { st1 with queue := [] }
      (st1.queue ++ rest.1, rest.2)

/-- The greedy decomposition conserves byte counts. -/
theorem chunksOf_length {sep : List Byte} (hsep : sep ≠ []) :
    ∀ s : List Byte,
      (((chunksOf sep s).1.map List.length).sum + (chunksOf sep s).2.length)
        = s.length := by
  have hL : 1 ≤ sep.length := by
    cases sep with
    | nil => exact absurd rfl hsep
    | cons a t => simp
  suffices hstrong : ∀ n s, s.length ≤ n →
      (((chunksOf sep s).1.map List.length).sum + (chunksOf sep s).2.length)
        = s.length by
    exact fun s => hstrong s.length s le_rfl
  intro n
  induction n using Nat.strong_induction_on with
  | _ n ih =>
      intro s hlen
      cases hidx : bIndex sep s with
      | none => rw [chunksOf_none hsep hidx]; simp
      | some i =>
          have hle := occur_le hsep (bIndex_some_occ hidx)
          rw [chunksOf_some hsep hidx]
          dsimp only
          rw [List.map_cons, List.sum_cons]
          have hlt : (s.drop (i + sep.length)).length < n := by
            rw [List.length_drop]; omega
          have hrec := ih _ hlt (s.drop (i + sep.length)) le_rfl
          rw [List.length_take] at *
          rw [List.length_drop] at hrec
          omega

/-- The final aggregator buffer after a `Flush` is always empty. -/
theorem mlFlush_buf (st : MLState) : (mlFlush st).buf = [] := by
  by_cases hb : st.buf.isEmpty
  · rw [mlFlush, if_pos hb]
    simpa using hb
  · rw [mlFlush, if_neg hb, enqueueAndReset, if_neg hb]

/-- **C4.** Multiline residual on one-shot read: if the bytes past the
current offset end in a non-empty tail without a terminator (the second
component of the greedy decomposition), `ReadOnce` with a multiline
aggregator feeds each chunk's line to the aggregator draining ready records,
then feeds the residual tail as a final line, calls `Flush`, emits every
drained record, and advances the offset by the residual length on top of the
chunk lengths — so the final offset is `offset + stream.length`, the size of
the file. The aggregator ends fully drained. -/
theorem tailer_readOnce_multiline_residual (mode : String)
    (startMatch condMatch : List Byte → Bool) (sep : List Byte)
    (hsep : sep ≠ []) :
    ∀ (stream : List Byte) (offset : Nat) (st0 : MLState),
      (chunksOf sep stream).2 ≠ [] →
      readOnceML mode startMatch condMatch sep offset [] stream st0 =
        ((mlFeedChunks mode startMatch condMatch sep (chunksOf sep stream).1 st0).1
           ++ (mlFlush (mlWrite mode startMatch condMatch
                (mlFeedChunks mode startMatch condMatch sep
                  (chunksOf sep stream).1 st0).2
                (chunksOf sep stream).2)).queue,
         offset + stream.length,
         ⟨[], []⟩) := by
  have hL : 1 ≤ sep.length := by
    cases sep with
    | nil => exact absurd rfl hsep
    | cons a t => simp
  suffices hstrong : ∀ n stream offset st0, stream.length ≤ n →
      (chunksOf sep stream).2 ≠ [] →
      readOnceML mode startMatch condMatch sep offset [] stream st0 =
        ((mlFeedChunks mode startMatch condMatch sep (chunksOf sep stream).1 st0).1
           ++ (mlFlush (mlWrite mode startMatch condMatch
                (mlFeedChunks mode startMatch condMatch sep
                  (chunksOf sep stream).1 st0).2
                (chunksOf sep stream).2)).queue,
         offset + stream.length,
         ⟨[], []⟩) by
    exact fun stream offset st0 => hstrong stream.length stream offset st0 le_rfl
  intro n
  induction n using Nat.strong_induction_on with
  | _ n ih =>
      intro stream offset st0 hlen htail
      have hrnc := readNextChunk_eq hsep stream [] (hbuf_nil hsep)
      rw [List.nil_append] at hrnc
      rw [readOnceML]
      split
      · rename_i heq
        rw [hrnc] at heq
        cases hidx : bIndex sep stream with
        | some i => rw [hidx] at heq; simp at heq
        | none => rw [hidx] at heq; simp at heq
      · rename_i buf' heq
        rw [hrnc] at heq
        cases hidx : bIndex sep stream with
        | some i => rw [hidx] at heq; simp at heq
        | none =>
            rw [hidx] at heq
            dsimp only at heq
            cases heq
            rw [chunksOf_none hsep hidx] at htail ⊢
            dsimp only at htail ⊢
            have hne : stream.isEmpty = false := by
              simpa using htail
            rw [if_neg (by simp [hne])]
            rw [mlFeedChunks]
            dsimp only
            have hbuf := mlFlush_buf (mlWrite mode startMatch condMatch st0 stream)
            rw [List.nil_append]
            refine Prod.ext rfl (Prod.ext rfl ?_)
            exact congrArg (fun b => ({ buf := b, queue := [] } : MLState)) hbuf
      · rename_i c buf' stream' heq
        rw [hrnc] at heq
        cases hidx : bIndex sep stream with
        | none => rw [hidx] at heq; simp at heq
        | some i =>
            rw [hidx] at heq
            dsimp only at heq
            cases heq
            have hle := occur_le hsep (bIndex_some_occ hidx)
            have hclen : (stream.take (i + sep.length)).length = i + sep.length := by
              rw [List.length_take]; omega
            have hlt : (stream.drop (i + sep.length)).length < n := by
              rw [List.length_drop]; omega
            rw [chunksOf_some hsep hidx] at htail ⊢
            dsimp only at htail ⊢
            have hrec := ih _ hlt (stream.drop (i + sep.length))
              (offset + (stream.take (i + sep.length)).length)
              { mlWrite mode startMatch condMatch st0
                  (if sep.length ≤ (stream.take (i + sep.length)).length
                    then (stream.take (i + sep.length)).take
                      ((stream.take (i + sep.length)).length - sep.length)
                    else stream.take (i + sep.length)) with queue := [] }
              le_rfl htail
            rw [hrec]
            rw [mlFeedChunks]
            dsimp only
            rw [List.append_assoc]
            refine Prod.ext rfl (Prod.ext ?_ rfl)
            dsimp only
            rw [hclen, List.length_drop]
            omega

end TailerModel

namespace TailerModel

/-- Witness for `tailer_readOnce_multiline_residual`: separator `"\n"`, file
remainder `"I\nx"` (tail `"x"` has no terminator), ContinueThrough mode with
`startPattern` ≙ "first byte is `I`" and `conditionPattern` ≙ "first byte is
a space". The chunk line `"I"` starts a record, the residual `"x"` closes it
and is emitted standalone after the flush; the offset advances by the
residual length to the file size 3. -/
theorem tailer_readOnce_multiline_residual_witness :
    let startMatch : List Byte → Bool := fun l => l.headD 0 == 73
    let condMatch : List Byte → Bool := fun l => l.headD 0 == 32
    ([10] : List Byte) ≠ [] ∧
    (chunksOf [10] [73, 10, 120]).2 ≠ [] ∧
    readOnceML "continueThrough" startMatch condMatch [10] 0 [] [73, 10, 120]
      ⟨[], []⟩ = ([[73], [120]], 3, ⟨[], []⟩) := by
  intro startMatch condMatch
  have e1 : chunksOf [10] [120] = ([], [120]) :=
    chunksOf_none (by decide) (by decide)
  have e0 : chunksOf [10] [73, 10, 120] = ([[73, 10]], [120]) := by
    rw [chunksOf_some (by decide)
      (show bIndex [10] [73, 10, 120] = some 1 by decide)]
    rw [show List.drop (1 + List.length [10]) ([73, 10, 120] : List Byte)
        = [120] from rfl]
    rw [e1]
    decide
  refine ⟨by decide, by rw [e0]; decide, ?_⟩
  have h := tailer_readOnce_multiline_residual "continueThrough"
    startMatch condMatch [10] (by decide) [73, 10, 120] 0 ⟨[], []⟩
    (by rw [e0]; decide)
  rw [h, e0]
  decide

end TailerModel

namespace WatcherModel

open FileTrackerModel

/-- A registry (FileTracker) mutation performed during discovery, for
tracing which arguments the calls carry. -/
inductive RegCall where
  | addCall (id path strat : String) (size : Int) (offset : Int)
  | updateOffsetCall (id : String) (offset : Int)
  deriving DecidableEq, Repr

/-- Embeds the new-identity path of `Watcher.scan` composed with the
collector's `onAdd` callback (`NewCollector`):
```
if w.fileManager.Get(fileId) == nil {
    w.fileManager.Add(fileId, p, w.FingerprintStrategy, int64(w.FingerprintSize), 0)
    w.callback(fileId, p)        // collector onAdd:
    //   offset := int64(0)
    //   if stored, found := offsetDB.Load(id, strategy); found {
    //       offset = stored
    //       c.fileManager.UpdateOffset(id, offset)
    //   }
    //   fileTail := tailer.TailReader{FileId: id, Offset: offset, ...}
}
```
`store` is the `OffsetStore.Load` view (`none` ≙ not found; `Load` errors,
which leave the offset 0, are not distinguished from not-found here).
Returns `none` when the identity is already tracked (no calls are made),
else the updated registry, the offset the new `TailReader` is constructed
with, and the trace of registry calls in order. -/
def discoverNew (store : String → Option Int) (reg : FileTracker)
    (id path strat : String) (size : Int) :
    Option (FileTracker × Int × List RegCall) :=
  match FileTrackerModel.get reg id with
  | some _ => none
  | none =>
      let reg1 := add reg id path strat size 0
      match store id with
      | some storedOffset =>
          let reg2 := (updateOffset reg1 id storedOffset).2
          some (reg2, storedOffset,
            [RegCall.addCall id path strat size 0,
             RegCall.updateOffsetCall id storedOffset])
      | none =>
          some (reg1, 0, [RegCall.addCall id path strat size 0])

/-- **C7 (counterexample).** The claim says `Registry.Add` is called with
the offset loaded from the `OffsetStore` when an entry is present. With a
store holding offset 5 for identity `"f"` and an empty registry, discovery
calls `Registry.Add` with offset `0` (the stored offset only reaches the
registry through the subsequent `UpdateOffset` inside `onAdd`): no
`Add` call carrying the stored offset 5 occurs. -/
theorem watcher_add_offset_counterexample :
    let store : String → Option Int := fun i => if i = "f" then some 5 else none
    discoverNew store ⟨[]⟩ "f" "/log/f" "checksum" 64
      = some (⟨[("f", ⟨"/log/f", "checksum", 64, 5⟩)]⟩, 5,
          [RegCall.addCall "f" "/log/f" "checksum" 64 0,
           RegCall.updateOffsetCall "f" 5]) ∧
    (store "f").getD 0 = 5 ∧
    RegCall.addCall "f" "/log/f" "checksum" 64 ((store "f").getD 0) ∉
      [RegCall.addCall "f" "/log/f" "checksum" 64 0,
       RegCall.updateOffsetCall "f" 5] := by
  intro store
  refine ⟨?_, by decide, by decide⟩
  decide

/-- **C7 (amended).** Watcher registration with restored offset: for an
identity the scan observes that is not yet tracked, the system calls
`Registry.Add` with offset `0` and then invokes `onAdd(identity, path)`,
which loads the stored offset (if an entry is present, else keeps `0`),
updates the registry entry, and constructs the `TailReader` with that
offset; so after `onAdd` completes, the registry entry and the new tailer
both carry the stored offset or `0`. -/
theorem watcher_registration_restored_offset (store : String → Option Int)
    (reg : FileTracker) (id path strat : String) (size : Int)
    (hnew : FileTrackerModel.get reg id = none) :
    ∃ reg' t trace,
      discoverNew store reg id path strat size = some (reg', t, trace) ∧
      trace = RegCall.addCall id path strat size 0 ::
        (match store id with
         | some v => [RegCall.updateOffsetCall id v]
         | none => []) ∧
      t = (store id).getD 0 ∧
      lookup reg' id = some ⟨path, strat, size, (store id).getD 0⟩ := by
  have hfind : reg.info.find? (fun e => e.1 = id) = none := by
    unfold FileTrackerModel.get lookup at hnew
    cases hf : reg.info.find? (fun e => e.1 = id) with
    | none => rfl
    | some e0 => rw [hf] at hnew; simp at hnew
  have hlookup1 :
      lookup (add reg id path strat size 0) id
        = some ⟨path, strat, size, 0⟩ := by
    unfold add lookup
    rw [hfind]
    simp only [Option.isSome_none, Bool.false_eq_true, if_false]
    rw [List.find?_append, hfind]
    simp
  cases hst : store id with
  | none =>
      refine ⟨add reg id path strat size 0, 0,
        [RegCall.addCall id path strat size 0], ?_, rfl, rfl, ?_⟩
      · simp only [discoverNew, hnew, hst]
      · simpa using hlookup1
  | some v =>
      have hfind1 : ∃ e0,
          (add reg id path strat size 0).info.find? (fun e => e.1 = id)
            = some e0 := by
        unfold lookup at hlookup1
        cases hf : (add reg id path strat size 0).info.find? (fun e => e.1 = id) with
        | none => rw [hf] at hlookup1; simp at hlookup1
        | some e0 => exact ⟨e0, rfl⟩
      obtain ⟨e0, he0⟩ := hfind1
      refine ⟨(updateOffset (add reg id path strat size 0) id v).2, v,
        [RegCall.addCall id path strat size 0, RegCall.updateOffsetCall id v],
        ?_, rfl, rfl, ?_⟩
      · simp only [discoverNew, hnew, hst]
      · unfold updateOffset
        rw [hlookup1]
        unfold lookup
        dsimp only
        rw [find?_update_self (add reg id path strat size 0).info id
          ⟨path, strat, size, v⟩ e0 he0]
        rfl

/-- Witness for `watcher_registration_restored_offset` at a concrete store
(holding offset 5 for `"f"`, nothing for `"g"`) and empty registry:
discovery of `"f"` yields tailer and registry offset 5; discovery of `"g"`
yields 0. -/
theorem watcher_registration_restored_offset_witness :
    let store : String → Option Int := fun i => if i = "f" then some 5 else none
    (∃ reg' t trace,
      discoverNew store ⟨[]⟩ "f" "/log/f" "checksum" 64 = some (reg', t, trace) ∧
      trace = RegCall.addCall "f" "/log/f" "checksum" 64 0 ::
        [RegCall.updateOffsetCall "f" 5] ∧
      t = 5 ∧
      lookup reg' "f" = some ⟨"/log/f", "checksum", 64, 5⟩) ∧
    (∃ reg' t trace,
      discoverNew store ⟨[]⟩ "g" "/log/g" "checksum" 64 = some (reg', t, trace) ∧
      trace = [RegCall.addCall "g" "/log/g" "checksum" 64 0] ∧
      t = 0 ∧
      lookup reg' "g" = some ⟨"/log/g", "checksum", 64, 0⟩) := by
  intro store
  constructor
  · obtain ⟨reg', t, trace, h1, h2, h3, h4⟩ :=
      watcher_registration_restored_offset store ⟨[]⟩ "f" "/log/f" "checksum" 64
        (by decide)
    exact ⟨reg', t, trace, h1, by simpa using h2, by simpa using h3,
      by simpa using h4⟩
  · obtain ⟨reg', t, trace, h1, h2, h3, h4⟩ :=
      watcher_registration_restored_offset store ⟨[]⟩ "g" "/log/g" "checksum" 64
        (by decide)
    exact ⟨reg', t, trace, h1, by simpa using h2, by simpa using h3,
      by simpa using h4⟩

end WatcherModel

namespace WatcherStopModel

/-- Program counter of the watcher goroutine spawned by `Watcher.Start`:
it is inside `w.scan()`, inside the `select` between `stopCh` and the
ticker, or has returned (running the deferred `close(w.doneCh)`). -/
inductive WatcherPC where
  | scanning
  | selecting
  | finished
  deriving DecidableEq, Repr

/-- Program counter of the caller thread invoking `Stop()` or
`StopAndWait()`. -/
inductive CallerPC where
  | idle
  | stopReturned
  | waitingDone
  | waitReturned
  deriving DecidableEq, Repr

/-- Shared state: the goroutine position, whether `stopCh`/`doneCh` are
closed, and the caller position. -/
structure StopState where
  wpc : WatcherPC
  stopClosed : Bool
  doneClosed : Bool
  caller : CallerPC
  deriving DecidableEq, Repr

/-- One interleaved step of the watcher goroutine
(`scan()` completing; the select taking the ticker branch — which Go's
`select` may pick even when `stopCh` is also ready — starting another scan;
the select taking the closed `stopCh`, returning, and running the deferred
`close(doneCh)`) or of the caller (`Stop()`: `close(stopCh)` then return;
`StopAndWait()`: `Stop()` then block on `<-doneCh`; the blocked receive
completing once `doneCh` is closed). -/
inductive StopStep : StopState → StopState → Prop
  | scanDone (sc dc : Bool) (c : CallerPC) :
      StopStep ⟨.scanning, sc, dc, c⟩ ⟨.selecting, sc, dc, c⟩
  | tick (sc dc : Bool) (c : CallerPC) :
      StopStep ⟨.selecting, sc, dc, c⟩ ⟨.scanning, sc, dc, c⟩
  | stopSelect (dc : Bool) (c : CallerPC) :
      StopStep ⟨.selecting, true, dc, c⟩ ⟨.finished, true, true, c⟩
  | callStop (w : WatcherPC) (sc dc : Bool) :
      StopStep ⟨w, sc, dc, .idle⟩ ⟨w, true, dc, .stopReturned⟩
  | callStopAndWait (w : WatcherPC) (sc dc : Bool) :
      StopStep ⟨w, sc, dc, .idle⟩ ⟨w, true, dc, .waitingDone⟩
  | waitDone (w : WatcherPC) (sc : Bool) :
      StopStep ⟨w, sc, true, .waitingDone⟩ ⟨w, sc, true, .waitReturned⟩

/-- Initial state after `Start()`: the immediate first `scan()` is in
flight, no channel closed, caller not yet in `Stop`. -/
def stopInit : StopState := ⟨.scanning, false, false, .idle⟩

/-- Reachability from the initial state. -/
def StopReachable (s : StopState) : Prop :=
  Relation.ReflTransGen StopStep stopInit s

/-- **C9 (counterexample).** `Stop()` called while the initial scan is in
flight returns immediately after closing `stopCh`: the state in which the
caller has returned from `Stop()` while the watcher goroutine is still
inside `scan()` is reachable (in one step from the initial state), so
`Stop()` does not wait for the in-flight scan. -/
theorem watcher_stop_counterexample :
    StopReachable ⟨.scanning, true, false, .stopReturned⟩ ∧
    (⟨.scanning, true, false, .stopReturned⟩ : StopState).caller
      = .stopReturned ∧
    (⟨.scanning, true, false, .stopReturned⟩ : StopState).wpc
      = .scanning := by
  refine ⟨?_, rfl, rfl⟩
  exact Relation.ReflTransGen.single (StopStep.callStop .scanning false false)

/-- The inductive invariant: `doneCh` is closed only after the goroutine
has finished, and a returned `StopAndWait` implies `doneCh` was closed. -/
def StopInv (s : StopState) : Prop :=
  (s.doneClosed = true → s.wpc = .finished) ∧
  (s.caller = .waitReturned → s.doneClosed = true)

theorem stopStep_preserves_inv {s s' : StopState}
    (hstep : StopStep s s') (hinv : StopInv s) : StopInv s' := by
  obtain ⟨h1, h2⟩ := hinv
  cases hstep with
  | scanDone sc dc c =>
      constructor
      · intro hdc
        exact absurd (h1 hdc) (by simp)
      · intro hc
        exact h2 hc
  | tick sc dc c =>
      constructor
      · intro hdc
        exact absurd (h1 hdc) (by simp)
      · intro hc
        exact h2 hc
  | stopSelect dc c =>
      exact ⟨fun _ => rfl, fun hc => rfl⟩
  | callStop w sc dc =>
      exact ⟨h1, by simp⟩
  | callStopAndWait w sc dc =>
      exact ⟨h1, by simp⟩
  | waitDone w sc =>
      exact ⟨h1, fun _ => rfl⟩

/-- Every reachable state satisfies the invariant. -/
theorem stopReachable_inv (s : StopState) (hreach : StopReachable s) :
    StopInv s := by
  unfold StopReachable at hreach
  induction hreach with
  | refl => exact ⟨by simp [stopInit], by simp [stopInit]⟩
  | tail hab hbc ih => exact stopStep_preserves_inv hbc ih

/-- **C9 (amended).** `Stop()` only requests cancellation and may return
while a scan is in flight (see the counterexample); it is `StopAndWait()`
that has the claimed property: in every reachable state in which
`StopAndWait` has returned, the watcher goroutine has finished — its
in-flight scan completed and no further scan can start — so no scan-driven
mutation of the registry happens after `StopAndWait()` returns. -/
theorem watcher_stopAndWait_returns_after_scan (s : StopState)
    (hreach : StopReachable s) (hret : s.caller = .waitReturned) :
    s.wpc = .finished := by
  have hinv := stopReachable_inv s hreach
  exact hinv.1 (hinv.2 hret)

/-- Witness for `watcher_stopAndWait_returns_after_scan`: the trace
scan-completes → `StopAndWait` is called → the select observes the closed
`stopCh` and the goroutine finishes closing `doneCh` → the wait returns.
The theorem applies and yields `wpc = finished`. -/
theorem watcher_stopAndWait_returns_after_scan_witness :
    StopReachable ⟨.finished, true, true, .waitReturned⟩ ∧
    (⟨.finished, true, true, .waitReturned⟩ : StopState).wpc = .finished := by
  have h1 : StopStep stopInit ⟨.selecting, false, false, .idle⟩ :=
    StopStep.scanDone false false .idle
  have h2 : StopStep ⟨.selecting, false, false, .idle⟩
      ⟨.selecting, true, false, .waitingDone⟩ :=
    StopStep.callStopAndWait .selecting false false
  have h3 : StopStep ⟨.selecting, true, false, .waitingDone⟩
      ⟨.finished, true, true, .waitingDone⟩ :=
    StopStep.stopSelect false .waitingDone
  have h4 : StopStep ⟨.finished, true, true, .waitingDone⟩
      ⟨.finished, true, true, .waitReturned⟩ :=
    StopStep.waitDone .finished true
  have hreach : StopReachable ⟨.finished, true, true, .waitReturned⟩ :=
    (((Relation.ReflTransGen.single h1).tail h2).tail h3).tail h4
  exact ⟨hreach, watcher_stopAndWait_returns_after_scan _ hreach rfl⟩

end WatcherStopModel

namespace FingerprintModel

open TailerModel

/-- Errors of `GetFileFingerprintUntilNSeparators`: the two validation
errors and `NotEnoughSeparatorsError{Expected, Actual}` (the skip
condition). -/
inductive FpErr where
  | emptySeparator
  | nonPositiveCount
  | notEnoughSeparators (expected actual : Nat)
  deriving DecidableEq, Repr

/-- Embeds `file_tracker.findNthSeparator`:
```
b := buf
for found < n {
    idx := bytes.Index(b[searchStart:], sep)
    if idx < 0 { return 0, found, false }
    found++
    posAfter := searchStart + idx + len(sep)
    if found == n { return posAfter, found, true }
    searchStart = posAfter
}
return 0, found, false
```
(In every use `searchStart ≤ len(buf)`; `List.drop` matches Go slicing
there.) -/
def findNthSeparator (buf sep : List Byte) (n found searchStart : Nat) :
    Nat × Nat × Bool :=
  if h : found < n then
    match bIndex sep (buf.drop searchStart) with
    | none => (0, found, false)
    | some idx =>
        if found + 1 = n then (searchStart + idx + sep.length, found + 1, true)
        else findNthSeparator buf sep n (found + 1) (searchStart + idx + sep.length)
  else (0, found, false)
termination_by n - found
decreasing_by omega

/-- Embeds `file_tracker.calcSearchStart`. -/
def calcSearchStart (bufLen sepLen : Nat) : Nat :=
  if sepLen ≤ 1 then bufLen
  else if bufLen ≥ sepLen - 1 then bufLen - (sepLen - 1)
  else 0

/-- Embeds the read-accumulate-search loop of
`GetFileFingerprintUntilNSeparators`:
```
chunk := make([]byte, 32*1024)
for {
    nr, err := file.Read(chunk)
    if nr > 0 {
        acc.Write(chunk[:nr])
        pos, updated, ok := findNthSeparator(acc.Bytes(), sepB, n, found, searchStart)
        found = updated
        if ok { return hashUntil(acc.Bytes(), pos), nil }
        searchStart = calcSearchStart(acc.Len(), len(sepB))
    }
    if err != nil {
        if err == io.EOF {
            return "", &NotEnoughSeparatorsError{Expected: n, Actual: found, Sep: sep}
        }
        return "", err
    }
}
```
For a regular file each `Read` returns `min(32768, remaining)` bytes, then
`(0, io.EOF)`. On success the function returns the bytes the Go code hashes
(`acc[:pos]`); the identity string is the SHA-256 hex of those bytes. -/
def fingerprintLoop (sep : List Byte) (n : Nat) (acc remaining : List Byte)
    (found searchStart : Nat) : Except FpErr (List Byte) :=
  if hre : remaining.isEmpty then .error (.notEnoughSeparators n found)
  else
    let acc' := acc ++ remaining.take 32768
    let r := findNthSeparator acc' sep n found searchStart
    if r.2.2 then .ok (acc'.take r.1)
    else fingerprintLoop sep n acc' (remaining.drop 32768)
      r.2.1 (calcSearchStart acc'.length sep.length)
termination_by remaining.length
decreasing_by
  rw [List.length_drop]
  have : remaining.length ≠ 0 := by
    simpa [List.isEmpty_iff, List.length_eq_zero] using hre
  omega

/-- Embeds `GetFileFingerprintUntilNSeparators(file, sep, n)` on a file with
content `content`: validation of `sep` and `n`, seek to the start, then the
loop. Returns the bytes that are SHA-256-hashed into the identity. -/
def getFileFingerprintUntilNSeparators (content sep : List Byte) (n : Int) :
    Except FpErr (List Byte) :=
  if sep = [] then .error .emptySeparator
  else if n ≤ 0 then .error .nonPositiveCount
  else fingerprintLoop sep n.toNat [] content 0 0

/-- Modelled from the claim's words: the end position (exclusive) of the
`n`-th occurrence of `sep` in `s`, scanning from the start and counting
occurrences greedily (each search resumes after the previous occurrence);
`none` when fewer than `n` occurrences exist. The bytes "from the start up
to and including the n-th occurrence" are `s.take` of this position. -/
def nthSeparatorEnd (sep s : List Byte) (n : Nat) : Option Nat :=
  if n ≤ (chunksOf sep s).1.length then
    some ((((chunksOf sep s).1.take n).map List.length).sum)
  else none

end FingerprintModel

namespace FingerprintModel

open TailerModel

/-- `findNthSeparator` counts occurrences exactly like the greedy
decomposition of the suffix it scans: starting with `found` of `n`
occurrences already counted and the search at position `p`, it succeeds iff
the suffix holds at least `n - found` more chunks, returning the end of the
`(n - found)`-th one, and otherwise reports `found` plus the number of
remaining chunks. -/
theorem findNthSeparator_spec {sep : List Byte} (hsep : sep ≠ []) :
    ∀ (k : Nat) (s : List Byte) (n found p : Nat), n - found ≤ k → found < n →
      findNthSeparator s sep n found p =
        (if n - found ≤ ((chunksOf sep (s.drop p)).1).length then
          (p + (((chunksOf sep (s.drop p)).1.take (n - found)).map List.length).sum,
           n, true)
        else (0, found + ((chunksOf sep (s.drop p)).1).length, false)) := by
  have hL : 1 ≤ sep.length := by
    cases sep with
    | nil => exact absurd rfl hsep
    | cons a t => simp
  intro k
  induction k with
  | zero => intro s n found p hk hfn; omega
  | succ k ih =>
      intro s n found p hk hfn
      rw [findNthSeparator, dif_pos hfn]
      cases hidx : bIndex sep (s.drop p) with
      | none =>
          rw [chunksOf_none hsep hidx]
          dsimp only
          rw [if_neg (by simp; omega)]
          simp
      | some idx =>
          rw [chunksOf_some hsep hidx]
          dsimp only
          have hoc := occur_le hsep (bIndex_some_occ hidx)
          have hc0 : ((s.drop p).take (idx + sep.length)).length
              = idx + sep.length := by
            rw [List.length_take]; omega
          have hdd : (s.drop p).drop (idx + sep.length)
              = s.drop (p + (idx + sep.length)) := List.drop_drop _ _ _
          by_cases hfin : found + 1 = n
          · rw [if_pos hfin]
            have hnf : n - found = 1 := by omega
            rw [if_pos (by rw [hnf, List.length_cons]; omega)]
            rw [hnf, List.take_succ_cons, List.take_zero, List.map_cons,
              List.map_nil, List.sum_cons, List.sum_nil, hc0]
            refine Prod.ext ?_ (Prod.ext ?_ rfl)
            · dsimp only; omega
            · dsimp only; omega
          · rw [if_neg hfin]
            have hrec := ih s n (found + 1) (p + (idx + sep.length))
              (by omega) (by omega)
            have heq : p + idx + sep.length = p + (idx + sep.length) := by omega
            rw [heq, hrec, hdd]
            have hnf : n - found = (n - (found + 1)) + 1 := by omega
            by_cases hcase : n - (found + 1)
                ≤ ((chunksOf sep (s.drop (p + (idx + sep.length)))).1).length
            · rw [if_pos hcase,
                if_pos (by rw [List.length_cons]; omega)]
              rw [hnf, List.take_succ_cons, List.map_cons, List.sum_cons, hc0]
              refine Prod.ext ?_ (Prod.ext rfl rfl)
              dsimp only
              omega
            · rw [if_neg hcase,
                if_neg (by rw [List.length_cons]; omega)]
              refine Prod.ext rfl (Prod.ext ?_ rfl)
              dsimp only
              rw [List.length_cons]
              omega

end FingerprintModel

namespace FingerprintModel

open TailerModel

theorem bIndex_nil {sep : List Byte} (hsep : sep ≠ []) :
    bIndex sep [] = none := by
  simp [bIndex, hsep]

/-- **C6 (amended).** `ChecksumSeparator` fingerprint: an empty `sep` or
`n ≤ 0` is rejected with an error; for non-empty `sep`, `n > 0`, and a file
whose content fits in a single 32 KiB read (for larger files the search
resumes `len(sep)-1` bytes before each read boundary, which can count an
occurrence overlapping the previously counted one — see the
counterexample), the computed identity is the SHA-256 (hex) of the bytes
from the start up to and including the `n`-th occurrence of `sep` (the
function below returns exactly the hashed bytes), and if the content holds
fewer than `n` occurrences the computation fails with
`NotEnoughSeparatorsError` (the skip condition). -/
theorem fingerprint_checksumSeparator (content sep : List Byte) (n : Int) :
    (sep = [] →
      getFileFingerprintUntilNSeparators content sep n = .error .emptySeparator) ∧
    (sep ≠ [] → n ≤ 0 →
      getFileFingerprintUntilNSeparators content sep n = .error .nonPositiveCount) ∧
    (sep ≠ [] → 0 < n → content.length ≤ 32768 →
      getFileFingerprintUntilNSeparators content sep n =
        match nthSeparatorEnd sep content n.toNat with
        | some p => .ok (content.take p)
        | none =>
            .error (.notEnoughSeparators n.toNat
              (chunksOf sep content).1.length)) := by
  refine ⟨?_, ?_, ?_⟩
  · intro hsep
    rw [getFileFingerprintUntilNSeparators, if_pos hsep]
  · intro hsep hn
    rw [getFileFingerprintUntilNSeparators, if_neg hsep, if_pos hn]
  · intro hsep hn hlen
    have hn' : 0 < n.toNat := by omega
    rw [getFileFingerprintUntilNSeparators, if_neg hsep,
      if_neg (by omega)]
    by_cases hempty : content = []
    · subst hempty
      rw [fingerprintLoop,
        dif_pos (show ([] : List Byte).isEmpty = true from rfl)]
      rw [chunksOf_none hsep (bIndex_nil hsep)]
      rw [nthSeparatorEnd, chunksOf_none hsep (bIndex_nil hsep)]
      rw [if_neg (by simp; omega)]
      rfl
    · have hne : ¬ (content.isEmpty = true) := by
        simpa [List.isEmpty_iff] using hempty
      rw [fingerprintLoop, dif_neg hne]
      dsimp only
      have hacc : ([] : List Byte) ++ content.take 32768 = content := by
        rw [List.nil_append, List.take_of_length_le hlen]
      rw [hacc]
      have hspec := findNthSeparator_spec hsep n.toNat content n.toNat 0 0
        (by omega) hn'
      rw [List.drop_zero] at hspec
      rw [nthSeparatorEnd]
      by_cases hcase : n.toNat - 0 ≤ (chunksOf sep content).1.length
      · have hFNS : findNthSeparator content sep n.toNat 0 0
            = (0 + (((chunksOf sep content).1.take (n.toNat - 0)).map
                List.length).sum, n.toNat, true) := by
          rw [hspec, if_pos hcase]
        rw [hFNS]
        rw [if_pos (show (((0 + (((chunksOf sep content).1.take
            (n.toNat - 0)).map List.length).sum, n.toNat, true) :
            Nat × Nat × Bool)).2.2 = true from rfl)]
        rw [if_pos (by omega)]
        dsimp only
        rw [Nat.sub_zero, Nat.zero_add]
      · have hFNS : findNthSeparator content sep n.toNat 0 0
            = (0, 0 + (chunksOf sep content).1.length, false) := by
          rw [hspec, if_neg hcase]
        rw [hFNS]
        rw [if_neg (show ¬ (((0, 0 + (chunksOf sep content).1.length,
            false) : Nat × Nat × Bool).2.2 = true) by simp)]
        rw [if_neg (by omega)]
        dsimp only
        have hdrop : content.drop 32768 = [] :=
          List.drop_eq_nil_of_le hlen
        rw [hdrop, fingerprintLoop,
          dif_pos (show ([] : List Byte).isEmpty = true from rfl)]
        rw [Nat.zero_add]

end FingerprintModel

namespace FingerprintModel

open TailerModel

/-- Witness for `fingerprint_checksumSeparator` on `"a\nb\nc"` with
separator `"\n"`: `n = 2` hashes the bytes up to and including the second
newline; `n = 3` is a skip (only 2 separators); empty separator and
`n = 0` are rejected. -/
theorem fingerprint_checksumSeparator_witness :
    getFileFingerprintUntilNSeparators [97, 10, 98, 10, 99] [] 2
      = .error .emptySeparator ∧
    getFileFingerprintUntilNSeparators [97, 10, 98, 10, 99] [10] 0
      = .error .nonPositiveCount ∧
    getFileFingerprintUntilNSeparators [97, 10, 98, 10, 99] [10] 2
      = .ok [97, 10, 98, 10] ∧
    getFileFingerprintUntilNSeparators [97, 10, 98, 10, 99] [10] 3
      = .error (.notEnoughSeparators 3 2) := by
  have e0 : chunksOf [10] [99] = ([], [99]) :=
    chunksOf_none (by decide) (by decide)
  have e1 : chunksOf [10] [98, 10, 99] = ([[98, 10]], [99]) := by
    rw [chunksOf_some (by decide)
      (show bIndex [10] [98, 10, 99] = some 1 by decide)]
    rw [show List.drop (1 + List.length [10]) ([98, 10, 99] : List Byte)
        = [99] from rfl]
    rw [e0]
    decide
  have e2 : chunksOf [10] [97, 10, 98, 10, 99]
      = ([[97, 10], [98, 10]], [99]) := by
    rw [chunksOf_some (by decide)
      (show bIndex [10] [97, 10, 98, 10, 99] = some 1 by decide)]
    rw [show List.drop (1 + List.length [10]) ([97, 10, 98, 10, 99] : List Byte)
        = [98, 10, 99] from rfl]
    rw [e1]
    decide
  refine ⟨?_, ?_, ?_, ?_⟩
  · exact (fingerprint_checksumSeparator [97, 10, 98, 10, 99] [] 2).1 rfl
  · exact (fingerprint_checksumSeparator [97, 10, 98, 10, 99] [10] 0).2.1
      (by decide) (by decide)
  · have h := (fingerprint_checksumSeparator [97, 10, 98, 10, 99] [10] 2).2.2
      (by decide) (by decide) (by decide)
    rw [h, nthSeparatorEnd, e2]
    rfl
  · have h := (fingerprint_checksumSeparator [97, 10, 98, 10, 99] [10] 3).2.2
      (by decide) (by decide) (by decide)
    rw [h, nthSeparatorEnd, e2]
    rfl

/-- `bIndex` skips a replicated prefix on which `sep` can never start. -/
theorem bIndex_x_replicate {sep : List Byte} {x : Byte}
    (hx : ∀ l : List Byte, ¬ sep <+: (x :: l)) :
    ∀ (k : Nat) (r : List Byte),
      bIndex sep (List.replicate k x ++ r) = (bIndex sep r).map (· + k) := by
  intro k
  induction k with
  | zero =>
      intro r
      rw [List.replicate_zero, List.nil_append]
      cases bIndex sep r <;> simp
  | succ k ih =>
      intro r
      rw [List.replicate_succ, List.cons_append, bIndex, if_neg (hx _), ih]
      cases bIndex sep r with
      | none => rfl
      | some i =>
          simp only [Option.map_some']
          rw [Option.some.injEq]
          omega

end FingerprintModel

namespace FingerprintModel

open TailerModel

/-- **C6 (counterexample).** The 32769-byte file consisting of 32766 `'x'`
bytes followed by `"aaa"`, with separator `"aa"` and `n = 2`: scanning from
the start, `"aa"` occurs only once before EOF (at bytes 32766–32767; the
greedy decomposition has a single chunk and the tail `"a"`), so the claim
demands the `NotEnoughSeparatorsError` skip. The code instead succeeds and
hashes the whole file: the first 32 KiB read ends exactly between the two
counted occurrences, and the resumed search at `len - (len(sep)-1)` counts
a second, *overlapping* occurrence at bytes 32767–32768. -/
theorem fingerprint_chunk_boundary_counterexample :
    getFileFingerprintUntilNSeparators
        (List.replicate 32766 120 ++ [97, 97, 97]) [97, 97] 2
      = .ok (List.replicate 32766 120 ++ [97, 97, 97]) ∧
    nthSeparatorEnd [97, 97] (List.replicate 32766 120 ++ [97, 97, 97]) 2
      = none ∧
    (chunksOf [97, 97] (List.replicate 32766 120 ++ [97, 97, 97])).1.length
      = 1 ∧
    (List.replicate 32766 120 ++ [97, 97, 97] : List Byte).length = 32769 := by
  set R : List Byte := List.replicate 32766 120 with hR
  have hRlen : R.length = 32766 := List.length_replicate _ _
  have hx : ∀ l : List Byte, ¬ ([97, 97] : List Byte) <+: (120 :: l) := by
    intro l h
    have := (List.cons_prefix_cons.mp h).1
    exact absurd this (by decide)
  have hlenc : (R ++ [97, 97, 97] : List Byte).length = 32769 := by
    rw [List.length_append, hRlen]
    decide
  have hbc : bIndex [97, 97] (R ++ [97, 97, 97]) = some 32766 := by
    rw [hR, bIndex_x_replicate hx,
      show bIndex [97, 97] ([97, 97, 97] : List Byte) = some 0 by decide]
    rfl
  have htakeB : (R ++ [97, 97, 97] : List Byte).take 32768 = R ++ [97, 97] := by
    rw [List.take_append_eq_append_take,
      List.take_of_length_le (by rw [hRlen]; decide), hRlen]
    exact congrArg (R ++ ·) (by decide)
  have hdropB : (R ++ [97, 97, 97] : List Byte).drop 32768 = [97] := by
    rw [List.drop_append_eq_append_drop,
      List.drop_eq_nil_of_le (by rw [hRlen]; decide), List.nil_append, hRlen]
    decide
  have htakeA : (R ++ [97, 97, 97] : List Byte).take
      (32766 + List.length ([97, 97] : List Byte)) = R ++ [97, 97] := by
    rw [show (32766 + List.length ([97, 97] : List Byte)) = 32768 from rfl]
    exact htakeB
  have hdropA : (R ++ [97, 97, 97] : List Byte).drop
      (32766 + List.length ([97, 97] : List Byte)) = [97] := by
    rw [show (32766 + List.length ([97, 97] : List Byte)) = 32768 from rfl]
    exact hdropB
  have hcs : chunksOf [97, 97] (R ++ [97, 97, 97])
      = ([R ++ [97, 97]], [97]) := by
    rw [chunksOf_some (by decide) hbc]
    rw [htakeA, hdropA]
    rw [chunksOf_none (by decide) (by decide : bIndex [97, 97] [97] = none)]
  have hnse : nthSeparatorEnd [97, 97] (R ++ [97, 97, 97]) 2 = none := by
    rw [nthSeparatorEnd, hcs]
    rw [if_neg (by decide)]
  have hF1 : findNthSeparator (R ++ [97, 97]) [97, 97] 2 0 0 = (0, 1, false) := by
    rw [findNthSeparator, dif_pos (by omega), List.drop_zero]
    have hb1 : bIndex [97, 97] (R ++ [97, 97]) = some 32766 := by
      rw [hR, bIndex_x_replicate hx,
        show bIndex [97, 97] ([97, 97] : List Byte) = some 0 by decide]
      rfl
    rw [hb1]
    dsimp only
    rw [if_neg (show ¬ (0 + 1 = 2) by decide)]
    rw [findNthSeparator, dif_pos (by omega)]
    have hd : (R ++ [97, 97] : List Byte).drop
        (0 + 32766 + List.length ([97, 97] : List Byte)) = [] := by
      apply List.drop_eq_nil_of_le
      rw [List.length_append, hRlen]
    rw [hd, bIndex_nil (by decide)]
  have hasc : (R ++ [97, 97]) ++ [97] = R ++ [97, 97, 97] := by
    rw [List.append_assoc]
    exact congrArg (fun t => R ++ t) (by decide)
  have hF2 : findNthSeparator (R ++ [97, 97, 97]) [97, 97] 2 1 32767
      = (32769, 2, true) := by
    rw [findNthSeparator, dif_pos (by omega)]
    have hd : (R ++ [97, 97, 97] : List Byte).drop 32767 = [97, 97] := by
      rw [List.drop_append_eq_append_drop,
        List.drop_eq_nil_of_le (by rw [hRlen]; decide), List.nil_append, hRlen]
      decide
    rw [hd, show bIndex [97, 97] ([97, 97] : List Byte) = some 0 by decide]
    dsimp only
    rw [if_pos (show 1 + 1 = 2 from rfl)]
    decide
  have hcalc : calcSearchStart (R ++ [97, 97] : List Byte).length
      (List.length ([97, 97] : List Byte)) = 32767 := by
    rw [List.length_append, hRlen]
    decide
  have hcne : ¬ ((R ++ [97, 97, 97] : List Byte).isEmpty = true) := by
    rw [List.isEmpty_iff]
    intro h
    have := congrArg List.length h
    rw [hlenc] at this
    simp at this
  have hloop : fingerprintLoop [97, 97] 2 [] (R ++ [97, 97, 97]) 0 0
      = .ok ((R ++ [97, 97, 97]).take 32769) := by
    rw [fingerprintLoop, dif_neg hcne]
    dsimp only
    rw [List.nil_append, htakeB, hF1]
    rw [if_neg (show ¬ (((0, 1, false) : Nat × Nat × Bool).2.2 = true) by decide)]
    rw [hdropB, hcalc]
    rw [fingerprintLoop,
      dif_neg (show ¬ (([97] : List Byte).isEmpty = true) by decide)]
    dsimp only
    rw [show ([97] : List Byte).take 32768 = [97] from rfl]
    rw [hasc, hF2]
    rw [if_pos (show (((32769, 2, true) : Nat × Nat × Bool)).2.2 = true from rfl)]
  refine ⟨?_, hnse, by rw [hcs]; rfl, hlenc⟩
  rw [getFileFingerprintUntilNSeparators, if_neg (by decide), if_neg (by decide),
    show ((2 : Int)).toNat = 2 from rfl, hloop]
  rw [List.take_of_length_le (by rw [hlenc])]
